import Mathlib

/-!
Verification of the cruzbit directory indexer against its specification.

This file shallowly embeds the Go source of the indexer (utils.go,
dir_graph.go and the indexer file) in Lean 4 and proves or refutes the
specified properties.

Modelling conventions:
* Go strings are modelled as lists of characters (`Str`).  All identifiers
  handled by the indexer are ASCII, so byte length and character length agree.
* Go `float64` edge weights and rankings are modelled as exact rationals
  (`ℚ`); all weight increments originate from integer amounts, and the spec
  (§9, Floating-point weights) asks implementers to keep the accumulation
  exact, so the exact model is the faithful reading of the arithmetic.
* Go `int64`/`int` values are modelled as `Int`; where the Go code can only
  ever see the in-range behaviour this is exact.
* A Go `panic` (e.g. `strings.Repeat` with a negative count, or writing to a
  nil map) is modelled by `Option`, with `none` for the panic.
* Go map iteration order is unspecified; where the code iterates a map and
  the result is order-independent (exact rational additions) the model sums
  over the index range, and where it is order-dependent (the directory-label
  search) the model iterates in insertion order, as flagged in the spec
  (§9, label collisions are deliberately left unspecified).
-/

/-- Go strings, as lists of characters. -/
abbrev Str := List Char

/-- Models Go `strings.TrimRight(s, cutset)`: removes trailing characters
belonging to `cut`. -/
def trimRightCut (cut : List Char) (s : Str) : Str :=
  (s.reverse.dropWhile (fun c => c ∈ cut)).reverse

/-- Models Go `strings.TrimLeft(s, cutset)`. -/
def trimLeftCut (cut : List Char) (s : Str) : Str :=
  s.dropWhile (fun c => c ∈ cut)

/-- Models Go `strings.Trim(s, cutset)`: removes leading and trailing
characters belonging to `cut`. -/
def trimCut (cut : List Char) (s : Str) : Str :=
  trimRightCut cut (trimLeftCut cut s)

/-- Models Go `strings.Split(s, "/")` for a single-character separator:
splits into the (possibly empty) fields between occurrences of `c`.
`splitChar c []` is `[[]]`, matching Go. -/
def splitChar (c : Char) : Str → List Str
  | [] => [[]]
  | x :: xs =>
    if x = c then [] :: splitChar c xs
    else
      match splitChar c xs with
      | h :: t => (x :: h) :: t
      | [] => [[x]]

/-- The field of `s` before the first occurrence of the separator `sep`,
i.e. Go `strings.Split(s, sep)[0]`.  Go splits an arbitrary string around
an empty separator into its individual characters, so for `sep = []` the
first field is the first character of `s` (or `[]` when `s` is empty). -/
def firstField (s : Str) (sep : Str) : Str :=
  match sep with
  | [] => match s with
          | [] => []
          | c :: _ => [c]
  | _ :: _ => firstFieldGo s sep
where
  /-- the characters of `s` preceding the first occurrence of the
  (non-empty) pattern `sep`. -/
  firstFieldGo : Str → Str → Str
  | [], _ => []
  | c :: rest, sep => if sep.isPrefixOf (c :: rest) then [] else c :: firstFieldGo rest sep

/-- Embeds `pad44` from utils.go.  Pads the input to the 44-character
Base64 length of an ED25519 public key.  Go's `strings.Repeat` panics when
its count is negative (inputs of length 43 without a slash that are not
`"0"`), which the model renders as `none`. -/
def pad44 (input : Str) : Option Str :=
  if 44 ≤ input.length then some input
  else
    let reInput := if input ≠ ['0'] ∧ ¬ ('/' ∈ input) then input ++ ['/'] else input
    let padLength : Int := 44 - (reInput.length : Int) - 1
    if padLength < 0 then none
    else some (reInput ++ List.replicate padLength.toNat '0' ++ ['='])

/-- `pad44 "0"`: the canonical 44-character root-sink identifier,
43 `'0'` characters followed by `'='`. -/
def rootKey : Str := List.replicate 43 '0' ++ ['=']

theorem pad44_zero : pad44 ['0'] = some rootKey := by decide

/-- Decimal digit count, `⌊log10 n⌋ + 1` for `n ≥ 1`, computed by structural
recursion on a fuel argument so that it evaluates inside the kernel. -/
def digitCountAux : Nat → Nat → Nat
  | 0, _ => 1
  | fuel + 1, n => if n < 10 then 1 else 1 + digitCountAux fuel (n / 10)

/-- Decimal digit count of a natural number (`digitCount 0 = 1`). -/
def digitCount (n : Nat) : Nat := digitCountAux n n

theorem digitCountAux_eq_log (fuel n : Nat) (h : n ≤ fuel) :
    digitCountAux fuel n = Nat.log 10 n + 1 := by
  induction fuel generalizing n with
  | zero =>
    interval_cases n
    simp [digitCountAux]
  | succ fuel ih =>
    rw [digitCountAux]
    by_cases h10 : n < 10
    · rw [if_pos h10, Nat.log_eq_zero_iff.2 (Or.inl h10)]
    · rw [if_neg h10]
      have hn : 0 < n := by omega
      have hdiv : n / 10 ≤ fuel := by
        have := Nat.div_lt_self hn (by norm_num : (1:ℕ) < 10)
        omega
      rw [ih _ hdiv]
      have : Nat.log 10 (n / 10) = Nat.log 10 n - 1 := Nat.log_div_base 10 n
      have hlog : 1 ≤ Nat.log 10 n :=
        Nat.one_le_iff_ne_zero.2 (by
          intro h0
          rcases Nat.log_eq_zero_iff.1 h0 with h' | h' <;> omega)
      omega

/-- `digitCount` agrees with `Nat.log 10 · + 1`. -/
theorem digitCount_eq_log (n : Nat) : digitCount n = Nat.log 10 n + 1 :=
  digitCountAux_eq_log n n le_rfl

/-- Embeds `DiminishingOrders` from utils.go.  The Go code computes the
digit count with `int(math.Log10(float64(n))) + 1` and the powers with
`int64(math.Pow(10, i+1))`; for the heights the indexer feeds it (far
below `10^15`) both float computations are exact, so they are modelled by
the exact digit count (`digitCount`, see `digitCount_eq_log`) and integer
powers.  For `n < 0` the conversion of `math.Log10`'s NaN yields a
negative digit count on amd64 and the loop body never runs; the model
returns `[n]` accordingly.  `dimStep` is one iteration of the loop body. -/
def dimStep (n : Int) (results : List Int) (i : Nat) : List Int :=
  let power : Int := 10 ^ (i + 1)
  let rounded := n - Int.tmod n power
  if rounded ≠ results.getLastD n then results ++ [rounded] else results

/-- Embeds `DiminishingOrders` from utils.go (loop body: `dimStep`). -/
def DiminishingOrders (n : Int) : List Int :=
  if n = 0 then [0]
  else if n < 0 then [n]
  else
    let digits := digitCount n.toNat
    (List.range digits).foldl (dimStep n) [n]

theorem diminishingOrders_123 : DiminishingOrders 123 = [123, 120, 100, 0] := by decide

theorem int_emod_le_self (x p : Int) (hx : 0 ≤ x) (hp : 0 < p) : x % p ≤ x := by
  by_cases h : x < p
  · rw [Int.emod_eq_of_lt hx h]
  · exact le_trans (le_of_lt (Int.emod_lt_of_pos x hp)) (le_of_not_lt h)

/-- The truncation `n - n.tmod (10 ^ d)` is antitone in `d` for `n ≥ 0`. -/
theorem trunc_antitone (n : Int) (hn : 0 ≤ n) (d : Nat) :
    n - Int.tmod n (10 ^ (d + 1)) ≤ n - Int.tmod n (10 ^ d) := by
  have hd : (0:Int) < 10 ^ d := pow_pos (by norm_num) d
  have hd1 : (0:Int) < 10 ^ (d + 1) := pow_pos (by norm_num) (d + 1)
  rw [Int.tmod_eq_emod hn (le_of_lt hd), Int.tmod_eq_emod hn (le_of_lt hd1)]
  have hdvd : (10:Int) ^ d ∣ 10 ^ (d + 1) := pow_dvd_pow 10 (Nat.le_succ d)
  have h1 : n % 10 ^ (d + 1) % 10 ^ d = n % 10 ^ d := Int.emod_emod_of_dvd n hdvd
  have h2 : n % 10 ^ (d + 1) % 10 ^ d ≤ n % 10 ^ (d + 1) :=
    int_emod_le_self _ _ (Int.emod_nonneg n (ne_of_gt hd1)) hd
  omega

theorem getLast?_eq_getLastD (l : List Int) (h : l ≠ []) (d : Int) :
    l.getLast? = some (l.getLastD d) := by
  rw [List.getLastD_eq_getLast?]
  obtain ⟨x, hx⟩ := Option.isSome_iff_exists.1 (List.getLast?_isSome.2 h)
  rw [hx]
  rfl

theorem head?_append_singleton {α : Type} (l : List α) (x : α) (h : l ≠ []) :
    (l ++ [x]).head? = l.head? := by
  cases l with
  | nil => exact absurd rfl h
  | cons a t => rfl

theorem getLastD_append_singleton {α : Type} (l : List α) (x d : α) :
    (l ++ [x]).getLastD d = x := by
  rw [List.getLastD_eq_getLast?, List.getLast?_concat]
  rfl

/-- Invariant of the `DiminishingOrders` loop: after `d` iterations the
accumulator starts with `n`, ends with the truncation
`n - n.tmod (10 ^ d)`, and is strictly decreasing. -/
theorem dimFold_inv (n : Int) (hn : 1 ≤ n) (d : Nat) :
    ((List.range d).foldl (dimStep n) [n]).head? = some n ∧
    ((List.range d).foldl (dimStep n) [n]).getLastD n = n - Int.tmod n (10 ^ d) ∧
    ((List.range d).foldl (dimStep n) [n]).Chain' (· > ·) := by
  induction d with
  | zero =>
    refine ⟨rfl, ?_, List.chain'_singleton n⟩
    simp [Int.tmod_one]
  | succ d ih =>
    obtain ⟨ih1, ih2, ih3⟩ := ih
    rw [List.range_succ, List.foldl_append, List.foldl_cons, List.foldl_nil]
    set L := (List.range d).foldl (dimStep n) [n] with hL
    have hLne : L ≠ [] := by
      intro h
      rw [h] at ih1
      exact Option.noConfusion ih1
    simp only [dimStep]
    by_cases hcond : n - Int.tmod n (10 ^ (d + 1)) ≠ L.getLastD n
    · rw [if_pos hcond]
      refine ⟨?_, ?_, ?_⟩
      · rw [head?_append_singleton _ _ hLne]
        exact ih1
      · rw [getLastD_append_singleton]
      · refine List.chain'_append.2 ⟨ih3, List.chain'_singleton _, ?_⟩
        intro x hx y hy
        rw [getLast?_eq_getLastD L hLne n] at hx
        simp only [List.head?_cons, Option.mem_def, Option.some.injEq] at hx hy
        subst hx
        subst hy
        rw [ih2]
        have hle := trunc_antitone n (by omega) d
        rw [ih2] at hcond
        omega
    · rw [if_neg hcond]
      push_neg at hcond
      exact ⟨ih1, by rw [ih2] at hcond ⊢; omega, ih3⟩

/-- C8 (counterexample): at `n = 123` (digits `d_2 d_1 d_0 = 1 2 3`, so
`k = 2`), `DiminishingOrders` does not return `k + 1 = 3` values ending in
`d_k·10^k = 100`: it returns `[123, 120, 100, 0]`, because the final loop
iteration uses `power = 10^3 > n` and always appends the truncation `0`. -/
theorem c8_diminishing_cex :
    ¬ ((DiminishingOrders 123).length = 2 + 1 ∧
       (DiminishingOrders 123).getLast? = some (1 * 10 ^ 2)) := by
  decide

/-- C8 (amended): for every `n ≥ 1`, `DiminishingOrders n` is a strictly
decreasing sequence whose first element is `n` and whose last element is
`0` (not `d_k·10^k`: the loop's final iteration appends the truncation by
`10^digits > n`, which is `0`); `DiminishingOrders 0 = [0]` as claimed. -/
theorem c8_diminishing_amended (n : Int) (hn : 1 ≤ n) :
    ((DiminishingOrders n).head? = some n ∧
     (DiminishingOrders n).getLast? = some 0 ∧
     (DiminishingOrders n).Chain' (· > ·)) ∧
    DiminishingOrders 0 = [0] := by
  have hne : ¬ n = 0 := by omega
  have hneg : ¬ n < 0 := by omega
  rw [DiminishingOrders, if_neg hne, if_neg hneg]
  obtain ⟨h1, h2, h3⟩ := dimFold_inv n hn (digitCount n.toNat)
  have hnil : ((List.range (digitCount n.toNat)).foldl (dimStep n) [n]) ≠ [] := by
    intro h
    rw [h] at h1
    exact Option.noConfusion h1
  refine ⟨⟨h1, ?_, h3⟩, by decide⟩
  have hlt : n < 10 ^ digitCount n.toNat := by
    have hlog := Nat.lt_pow_succ_log_self (by norm_num : 1 < 10) n.toNat
    rw [digitCount_eq_log]
    have hcast : ((n.toNat : Int)) = n := Int.toNat_of_nonneg (by omega)
    calc n = (n.toNat : Int) := hcast.symm
    _ < ((10 ^ (Nat.log 10 n.toNat + 1) : Nat) : Int) := by exact_mod_cast hlog
    _ = 10 ^ (Nat.log 10 n.toNat + 1) := by push_cast; ring
  have htm : Int.tmod n (10 ^ digitCount n.toNat) = n := by
    rw [Int.tmod_eq_emod (by omega) (le_of_lt (pow_pos (by norm_num) _))]
    exact Int.emod_eq_of_lt (by omega) hlt
  rw [htm] at h2
  rw [getLast?_eq_getLastD _ hnil n, h2]
  norm_num

/-- Witness for C8 (amended) at `n = 45`. -/
theorem c8_diminishing_amended_witness :
    ((DiminishingOrders 45).head? = some 45 ∧
     (DiminishingOrders 45).getLast? = some 0 ∧
     (DiminishingOrders 45).Chain' (· > ·)) ∧
    DiminishingOrders 0 = [0] :=
  c8_diminishing_amended 45 (by norm_num)

/-- C10: `pad44` is defined (the repeat count is non-negative) on every
string of length `< 44` that has length `≤ 42`, contains a slash, or is
`"0"`, and then returns a 44-character string ending in `'='`; every
string of length `≥ 44` is returned unchanged. -/
theorem c10_pad44_safety :
    (∀ s : Str, s.length < 44 → (s.length ≤ 42 ∨ '/' ∈ s ∨ s = ['0']) →
      ∃ r, pad44 s = some r ∧ r.length = 44 ∧ r.getLast? = some '=') ∧
    (∀ s : Str, 44 ≤ s.length → pad44 s = some s) := by
  constructor
  · intro s hlen hcond
    have h44 : ¬ (44 ≤ s.length) := by omega
    rw [pad44, if_neg h44]
    by_cases hc : s ≠ ['0'] ∧ ¬ ('/' ∈ s)
    · have hlen42 : s.length ≤ 42 := by
        rcases hcond with h | h | h
        · exact h
        · exact absurd h hc.2
        · exact absurd h hc.1
      simp only [if_pos hc]
      have hplen : ¬ ((44 - ((s ++ ['/']).length : Int) - 1) < 0) := by
        simp only [List.length_append, List.length_cons, List.length_nil]
        push_cast
        omega
      rw [if_neg hplen]
      refine ⟨_, rfl, ?_, List.getLast?_concat _⟩
      simp only [List.length_append, List.length_replicate, List.length_cons,
        List.length_nil]
      have : ((44 : Int) - (s.length + 1 : Nat) - 1).toNat = 42 - s.length := by
        push_cast
        omega
      simp only [List.length_append, List.length_cons, List.length_nil] at this ⊢
      omega
    · simp only [if_neg hc]
      have hplen : ¬ ((44 - (s.length : Int) - 1) < 0) := by
        omega
      rw [if_neg hplen]
      refine ⟨_, rfl, ?_, List.getLast?_concat _⟩
      simp only [List.length_append, List.length_replicate, List.length_cons,
        List.length_nil]
      have : ((44 : Int) - (s.length : Nat) - 1).toNat = 43 - s.length := by
        omega
      omega
  · intro s h
    rw [pad44, if_pos h]

/-- Witness for C10 at `s = "a"` and `s = "0123..."` of length 44. -/
theorem c10_pad44_safety_witness :
    (∃ r, pad44 ['a'] = some r ∧ r.length = 44 ∧ r.getLast? = some '=') ∧
    pad44 rootKey = some rootKey :=
  ⟨c10_pad44_safety.1 ['a'] (by decide) (Or.inl (by decide)),
   c10_pad44_safety.2 rootKey (by decide)⟩

/-! ## dir_graph.go: the directory graph -/

/-- A graph node (`node` in dir_graph.go): its key, PageRank score and the

sum of the weights of its outgoing edges. -/
structure GNode where
  pubkey : Str
  ranking : ℚ
  outbound : ℚ
deriving DecidableEq

/-- An edge record (`edge` in dir_graph.go). -/
structure GEdge where
  weight : ℚ
  height : Int
  time : Int
deriving DecidableEq

/-- The directory graph (`Graph` in dir_graph.go).  Go's `index` map
assigns dense ids `0, 1, 2, …` in insertion order, so it is modelled by
the list of keys in insertion order (the id of a key is its position);
`nodes` maps each dense id to its node, and `edges` is the nested
`map[uint32]map[uint32]*edge` flattened to an association list with at
most one entry per ordered `(src, tgt)` pair. -/
structure Graph where
  keys : List Str
  nodes : List GNode
  edges : List ((Nat × Nat) × GEdge)
deriving DecidableEq

/-- `NewGraph` from dir_graph.go: all maps empty. -/
def NewGraph : Graph := ⟨[], [], []⟩

/-- Position of a key in the dense index (Go `graph.index[k]`, with
presence information). -/
def idxOf : List Str → Str → Option Nat
  | [], _ => none
  | k :: rest, s => if k = s then some 0 else (idxOf rest s).map (· + 1)

def Graph.indexOf (g : Graph) (k : Str) : Option Nat := idxOf g.keys k

/-- The first half of `Link`: look the key up in `index`, inserting a fresh
node with ranking 0 and outbound 0 at the next dense id if it is absent. -/
def Graph.getOrInsert (g : Graph) (k : Str) : Graph × Nat :=
  match g.indexOf k with
  | some i => (g, i)
  | none =>
    ({ g with
        keys := g.keys ++ [k]
        nodes := g.nodes ++ [⟨k, 0, 0⟩] },
     g.keys.length)

/-- Upserts `edges[src][tgt]`: Go creates a zero-weight edge if the pair is
absent, then adds `w` to its weight and overwrites `height` and `time`. -/
def updEdges : List ((Nat × Nat) × GEdge) → (Nat × Nat) → ℚ → Int → Int →
    List ((Nat × Nat) × GEdge)
  | [], key, w, h, t => [(key, ⟨w, h, t⟩)]
  | (k, e) :: rest, key, w, h, t =>
    if k = key then (k, ⟨e.weight + w, h, t⟩) :: rest
    else (k, e) :: updEdges rest key w h t

/-- Adds `w` to `nodes[i].outbound`. -/
def bumpOutbound : List GNode → Nat → ℚ → List GNode
  | [], _, _ => []
  | n :: rest, 0, w => { n with outbound := n.outbound + w } :: rest
  | n :: rest, i + 1, w => n :: bumpOutbound rest i w

/-- Embeds `Link` from dir_graph.go.  Both endpoints are canonicalized with
`pad44` (whose Go panic is propagated as `none`), inserted into the index
if new, the edge weight is accumulated with last-write-wins provenance,
and the source node's outbound sum is incremented. -/
def Graph.link (g : Graph) (src tgt : Str) (weight : ℚ) (height time : Int) :
    Option Graph := do
  let source ← pad44 src
  let target ← pad44 tgt
  let (g, _) := g.getOrInsert source
  let (g, _) := g.getOrInsert target
  let sIndex := (g.indexOf source).getD 0
  let tIndex := (g.indexOf target).getD 0
  some { g with
    edges := updEdges g.edges (sIndex, tIndex) weight height time,
    nodes := bumpOutbound g.nodes sIndex weight }

/-- One `Link` invocation. -/
structure LinkCall where
  src : Str
  tgt : Str
  weight : ℚ
  height : Int
  time : Int

/-- A sequence of `Link` calls, starting from a given graph. -/
def runLinks (g : Graph) (calls : List LinkCall) : Option Graph :=
  calls.foldlM (fun g c => g.link c.src c.tgt c.weight c.height c.time) g

/-- `Σ edges[i][·].weight`: the sum of the weights of the edges leaving `i`. -/
def Graph.outSum (g : Graph) (i : Nat) : ℚ :=
  ((g.edges.filter (fun e => e.1.1 = i)).map (fun e => e.2.weight)).sum

/-- `nodes[i].outbound` (0 when `i` is out of range, like Go's nil read). -/
def Graph.outboundOf (g : Graph) (i : Nat) : ℚ :=
  ((g.nodes.get? i).map GNode.outbound).getD 0

/-- `edges[s][t].weight`, or 0 when the pair is absent. -/
def Graph.edgeWeight (g : Graph) (s t : Nat) : ℚ :=
  ((g.edges.find? (fun e => e.1 = (s, t))).map (fun e => e.2.weight)).getD 0

/-- Well-formedness of a graph reachable through `Link`: `index` and
`nodes` have the same size, edge endpoints are valid dense ids, each
ordered pair occurs at most once, and each node's stored `outbound` equals
the sum of its outgoing edge weights. -/
structure Graph.WF (g : Graph) : Prop where
  nodes_len : g.nodes.length = g.keys.length
  edges_src : ∀ e ∈ g.edges, e.1.1 < g.keys.length
  edges_tgt : ∀ e ∈ g.edges, e.1.2 < g.keys.length
  edges_nodup : (g.edges.map (fun e => e.1)).Nodup
  outbound_inv : ∀ i, g.outboundOf i = g.outSum i

theorem idxOf_lt_length (l : List Str) (s : Str) (i : Nat) (h : idxOf l s = some i) :
    i < l.length := by
  induction l generalizing i with
  | nil => exact Option.noConfusion h
  | cons k rest ih =>
    rw [idxOf] at h
    by_cases hk : k = s
    · rw [if_pos hk] at h
      cases h
      simp
    · rw [if_neg hk] at h
      cases hrest : idxOf rest s with
      | none => rw [hrest] at h; exact Option.noConfusion h
      | some j =>
        rw [hrest] at h
        cases h
        have := ih j hrest
        simp
        omega

theorem idxOf_append_of_isSome (l l2 : List Str) (s : Str) (h : (idxOf l s).isSome) :
    idxOf (l ++ l2) s = idxOf l s := by
  induction l with
  | nil => simp [idxOf] at h
  | cons k rest ih =>
    rw [List.cons_append, idxOf, idxOf]
    by_cases hk : k = s
    · rw [if_pos hk, if_pos hk]
    · rw [if_neg hk, if_neg hk]
      rw [idxOf, if_neg hk] at h
      rw [ih (by simpa using h)]

theorem idxOf_append_self (l : List Str) (s : Str) (h : idxOf l s = none) :
    idxOf (l ++ [s]) s = some l.length := by
  induction l with
  | nil => simp [idxOf]
  | cons k rest ih =>
    rw [idxOf] at h
    by_cases hk : k = s
    · rw [if_pos hk] at h
      exact Option.noConfusion h
    · rw [if_neg hk] at h
      have hrest : idxOf rest s = none := by
        cases hr : idxOf rest s with
        | none => rfl
        | some j => rw [hr] at h; simp at h
      rw [List.cons_append, idxOf, if_neg hk, ih hrest]
      rfl

theorem updEdges_filter_sum (es : List ((Nat × Nat) × GEdge)) (key : Nat × Nat)
    (w : ℚ) (h t : Int) (i : Nat) :
    (((updEdges es key w h t).filter (fun e => e.1.1 = i)).map
        (fun e => e.2.weight)).sum
      = ((es.filter (fun e => e.1.1 = i)).map (fun e => e.2.weight)).sum
          + (if key.1 = i then w else 0) := by
  induction es with
  | nil =>
    by_cases hk : key.1 = i <;> simp [updEdges, hk]
  | cons he rest ih =>
    obtain ⟨k, e⟩ := he
    rw [updEdges]
    by_cases hkey : k = key
    · rw [if_pos hkey]
      subst hkey
      by_cases hi : k.1 = i <;> simp [List.filter_cons, hi] <;> ring
    · rw [if_neg hkey]
      by_cases hi : k.1 = i <;> simp [List.filter_cons, hi, ih] <;> ring

theorem updEdges_fst_of_mem (es : List ((Nat × Nat) × GEdge)) (key : Nat × Nat)
    (w : ℚ) (h t : Int) (hmem : key ∈ es.map (fun e => e.1)) :
    (updEdges es key w h t).map (fun e => e.1) = es.map (fun e => e.1) := by
  induction es with
  | nil => simp at hmem
  | cons he rest ih =>
    obtain ⟨k, e⟩ := he
    rw [updEdges]
    by_cases hkey : k = key
    · rw [if_pos hkey]
      simp
    · rw [if_neg hkey]
      have : key ∈ rest.map (fun e => e.1) := by
        simp only [List.map_cons, List.mem_cons] at hmem
        rcases hmem with hmem | hmem
        · exact absurd hmem.symm hkey
        · exact hmem
      simp [ih this]

theorem updEdges_fst_of_not_mem (es : List ((Nat × Nat) × GEdge)) (key : Nat × Nat)
    (w : ℚ) (h t : Int) (hmem : key ∉ es.map (fun e => e.1)) :
    (updEdges es key w h t).map (fun e => e.1) = es.map (fun e => e.1) ++ [key] := by
  induction es with
  | nil => simp [updEdges]
  | cons he rest ih =>
    obtain ⟨k, e⟩ := he
    rw [updEdges]
    have hkey : ¬ (k = key) := by
      intro hk
      exact hmem (by simp [hk])
    rw [if_neg hkey]
    have : key ∉ rest.map (fun e => e.1) := by
      intro hin
      exact hmem (by simp [hin])
    simp [ih this]

theorem updEdges_mem_fst (es : List ((Nat × Nat) × GEdge)) (key : Nat × Nat)
    (w : ℚ) (h t : Int) (p : Nat × Nat)
    (hp : p ∈ (updEdges es key w h t).map (fun e => e.1)) :
    p ∈ es.map (fun e => e.1) ∨ p = key := by
  by_cases hmem : key ∈ es.map (fun e => e.1)
  · rw [updEdges_fst_of_mem es key w h t hmem] at hp
    exact Or.inl hp
  · rw [updEdges_fst_of_not_mem es key w h t hmem] at hp
    simp only [List.mem_append, List.mem_singleton] at hp
    exact hp

theorem bumpOutbound_length (ns : List GNode) (i : Nat) (w : ℚ) :
    (bumpOutbound ns i w).length = ns.length := by
  induction ns generalizing i with
  | nil => rfl
  | cons n rest ih =>
    cases i with
    | zero => rfl
    | succ j => simp [bumpOutbound, ih]

theorem bumpOutbound_outbound (ns : List GNode) (i j : Nat) (w : ℚ) :
    (((bumpOutbound ns i w).get? j).map GNode.outbound).getD 0
      = ((ns.get? j).map GNode.outbound).getD 0
          + (if i = j ∧ j < ns.length then w else 0) := by
  induction ns generalizing i j with
  | nil => simp [bumpOutbound]
  | cons n rest ih =>
    cases i with
    | zero =>
      cases j with
      | zero => simp [bumpOutbound]
      | succ j2 => simp [bumpOutbound]
    | succ i2 =>
      cases j with
      | zero => simp [bumpOutbound]
      | succ j2 =>
        simp only [bumpOutbound, List.get?_cons_succ, List.length_cons]
        rw [ih]
        by_cases hcond : i2 = j2 ∧ j2 < rest.length
        · rw [if_pos hcond, if_pos ⟨by omega, by omega⟩]
        · rw [if_neg hcond, if_neg (by omega)]

theorem updEdges_mem (es : List ((Nat × Nat) × GEdge)) (key : Nat × Nat)
    (w : ℚ) (h t : Int) (e : (Nat × Nat) × GEdge)
    (he : e ∈ updEdges es key w h t) : e ∈ es ∨ e.1 = key := by
  induction es with
  | nil =>
    rw [updEdges] at he
    simp only [List.mem_singleton] at he
    subst he
    exact Or.inr rfl
  | cons hd rest ih =>
    obtain ⟨k, e0⟩ := hd
    rw [updEdges] at he
    by_cases hkey : k = key
    · rw [if_pos hkey] at he
      simp only [List.mem_cons] at he
      rcases he with he | he
      · subst he
        exact Or.inr hkey
      · exact Or.inl (List.mem_cons_of_mem _ he)
    · rw [if_neg hkey] at he
      simp only [List.mem_cons] at he
      rcases he with he | he
      · exact Or.inl (by simp [he])
      · rcases ih he with h1 | h1
        · exact Or.inl (List.mem_cons_of_mem _ h1)
        · exact Or.inr h1

theorem getOrInsert_edges (g : Graph) (k : Str) :
    (g.getOrInsert k).1.edges = g.edges := by
  rw [Graph.getOrInsert]
  cases g.indexOf k <;> rfl

theorem getOrInsert_outboundOf (g : Graph) (k : Str) (j : Nat) :
    (g.getOrInsert k).1.outboundOf j = g.outboundOf j := by
  rw [Graph.getOrInsert]
  cases g.indexOf k with
  | some i => rfl
  | none =>
    simp only [Graph.outboundOf]
    by_cases hj : j < g.nodes.length
    · rw [List.get?_append hj]
    · by_cases hje : j = g.nodes.length
      · subst hje
        rw [List.get?_concat_length, List.get?_eq_none.2 (le_refl _)]
        rfl
      · have h1 : (g.nodes ++ [({ pubkey := k, ranking := 0, outbound := 0 } : GNode)]).get? j
            = none := List.get?_eq_none.2 (by simp; omega)
        have h2 : g.nodes.get? j = none := List.get?_eq_none.2 (by omega)
        rw [h1, h2]

theorem getOrInsert_keys_le (g : Graph) (k : Str) :
    g.keys.length ≤ (g.getOrInsert k).1.keys.length := by
  rw [Graph.getOrInsert]
  cases g.indexOf k with
  | some i => exact le_refl _
  | none => simp

theorem getOrInsert_wf (g : Graph) (k : Str) (hwf : g.WF) :
    (g.getOrInsert k).1.WF := by
  refine ⟨?_, ?_, ?_, ?_, ?_⟩
  · rw [Graph.getOrInsert]
    cases g.indexOf k with
    | some i => exact hwf.nodes_len
    | none => simp [hwf.nodes_len]
  · intro e he
    rw [getOrInsert_edges] at he
    exact lt_of_lt_of_le (hwf.edges_src e he) (getOrInsert_keys_le g k)
  · intro e he
    rw [getOrInsert_edges] at he
    exact lt_of_lt_of_le (hwf.edges_tgt e he) (getOrInsert_keys_le g k)
  · rw [getOrInsert_edges]
    exact hwf.edges_nodup
  · intro i
    rw [getOrInsert_outboundOf]
    have : (g.getOrInsert k).1.outSum i = g.outSum i := by
      rw [Graph.outSum, getOrInsert_edges]
      rfl
    rw [this]
    exact hwf.outbound_inv i

theorem getOrInsert_indexOf_isSome (g : Graph) (k : Str) :
    ((g.getOrInsert k).1.indexOf k).isSome := by
  rw [Graph.getOrInsert]
  cases hik : g.indexOf k with
  | some i => simp [hik]
  | none =>
    simp only [Graph.indexOf] at hik ⊢
    rw [idxOf_append_self g.keys k hik]
    rfl

theorem getOrInsert_indexOf_other (g : Graph) (k k2 : Str)
    (h : (g.indexOf k2).isSome) :
    (g.getOrInsert k).1.indexOf k2 = g.indexOf k2 := by
  rw [Graph.getOrInsert]
  cases g.indexOf k with
  | some i => rfl
  | none =>
    simp only [Graph.indexOf] at h ⊢
    exact idxOf_append_of_isSome g.keys [k] k2 h

/-- `NewGraph` is well formed. -/
theorem newGraph_wf : NewGraph.WF := by
  refine ⟨rfl, ?_, ?_, ?_, ?_⟩
  · intro e he
    simp [NewGraph] at he
  · intro e he
    simp [NewGraph] at he
  · simp [NewGraph]
  · intro i
    simp [Graph.outboundOf, Graph.outSum, NewGraph]

/-- `Link` preserves well-formedness. -/
theorem link_wf (g : Graph) (src tgt : Str) (w : ℚ) (h t : Int) (g2 : Graph)
    (hwf : g.WF) (heq : g.link src tgt w h t = some g2) : g2.WF := by
  cases hps : pad44 src with
  | none => rw [Graph.link, hps] at heq; exact Option.noConfusion heq
  | some source =>
  cases hpt : pad44 tgt with
  | none => rw [Graph.link, hps, hpt] at heq; exact Option.noConfusion heq
  | some target =>
  rw [Graph.link, hps, hpt] at heq
  simp only [Option.bind_eq_bind, Option.some_bind, Option.some.injEq] at heq
  set g1 := (g.getOrInsert source).1 with hg1
  set gI := (g1.getOrInsert target).1 with hgI
  have wf1 : g1.WF := getOrInsert_wf g source hwf
  have wfI : gI.WF := getOrInsert_wf g1 target wf1
  have hsrcSome : (gI.indexOf source).isSome := by
    rw [hgI]
    rw [getOrInsert_indexOf_other g1 target source
      (getOrInsert_indexOf_isSome g source)]
    exact getOrInsert_indexOf_isSome g source
  have htgtSome : (gI.indexOf target).isSome := getOrInsert_indexOf_isSome g1 target
  obtain ⟨si, hsi⟩ := Option.isSome_iff_exists.1 hsrcSome
  obtain ⟨ti, hti⟩ := Option.isSome_iff_exists.1 htgtSome
  have hsilt : si < gI.keys.length := idxOf_lt_length gI.keys source si hsi
  have htilt : ti < gI.keys.length := idxOf_lt_length gI.keys target ti hti
  rw [← heq]
  simp only [hsi, hti, Option.getD_some]
  refine ⟨?_, ?_, ?_, ?_, ?_⟩
  · simpa [bumpOutbound_length] using wfI.nodes_len
  · intro e he
    rcases updEdges_mem gI.edges (si, ti) w h t e he with h1 | h1
    · exact wfI.edges_src e h1
    · rw [h1]
      exact hsilt
  · intro e he
    rcases updEdges_mem gI.edges (si, ti) w h t e he with h1 | h1
    · exact wfI.edges_tgt e h1
    · rw [h1]
      exact htilt
  · by_cases hmem : (si, ti) ∈ gI.edges.map (fun e => e.1)
    · rw [updEdges_fst_of_mem gI.edges (si, ti) w h t hmem]
      exact wfI.edges_nodup
    · rw [updEdges_fst_of_not_mem gI.edges (si, ti) w h t hmem]
      simp only [List.nodup_append, List.nodup_cons, List.nodup_nil]
      exact ⟨wfI.edges_nodup, by simp, by simpa using hmem⟩
  · intro i
    have hout : Graph.outboundOf
        { gI with
            edges := updEdges gI.edges (si, ti) w h t
            nodes := bumpOutbound gI.nodes si w } i
        = gI.outboundOf i + (if si = i ∧ i < gI.nodes.length then w else 0) := by
      simp only [Graph.outboundOf]
      exact bumpOutbound_outbound gI.nodes si i w
    have hsum : Graph.outSum
        { gI with
            edges := updEdges gI.edges (si, ti) w h t
            nodes := bumpOutbound gI.nodes si w } i
        = gI.outSum i + (if si = i then w else 0) := by
      simp only [Graph.outSum]
      exact updEdges_filter_sum gI.edges (si, ti) w h t i
    rw [hout, hsum, wfI.outbound_inv i]
    by_cases hcase : si = i
    · rw [if_pos hcase, if_pos ⟨hcase, by rw [wfI.nodes_len, ← hcase]; exact hsilt⟩]
    · rw [if_neg hcase, if_neg (by intro hc; exact hcase hc.1)]

/-- A sequence of `Link` calls preserves well-formedness. -/
theorem runLinks_wf (calls : List LinkCall) (g0 g : Graph) (hwf : g0.WF)
    (h : runLinks g0 calls = some g) : g.WF := by
  induction calls generalizing g0 with
  | nil =>
    rw [runLinks, List.foldlM_nil] at h
    cases h
    exact hwf
  | cons c rest ih =>
    rw [runLinks, List.foldlM_cons] at h
    cases hlink : g0.link c.src c.tgt c.weight c.height c.time with
    | none => rw [hlink] at h; exact Option.noConfusion h
    | some g1 =>
      rw [hlink] at h
      exact ih g1 (link_wf g0 c.src c.tgt c.weight c.height c.time g1 hwf hlink) h

/-- C5: after any finite sequence of `Link` calls on a freshly created
graph (that does not hit the `pad44` panic, i.e. returns a graph), every
node's stored `outbound` equals the sum of the weights of the edges
leaving it. -/
theorem c5_link_outbound (calls : List LinkCall) (g : Graph)
    (h : runLinks NewGraph calls = some g) :
    ∀ i, g.outboundOf i = g.outSum i :=
  (runLinks_wf calls NewGraph g newGraph_wf h).outbound_inv

theorem getD_of_isSome {α : Type} (o : Option α) (d : α) (h : o.isSome) :
    o = some (o.getD d) := by
  obtain ⟨x, hx⟩ := Option.isSome_iff_exists.1 h
  rw [hx]
  rfl

/-- Three concrete `Link` calls exercising edge-weight accumulation. -/
def demoCalls : List LinkCall :=
  [⟨['a'], ['b'], 3, 5, 100⟩, ⟨['a'], ['c'], 4, 6, 101⟩, ⟨['a'], ['b'], 2, 7, 102⟩]

/-- The graph produced by `demoCalls`. -/
def demoGraph : Graph := (runLinks NewGraph demoCalls).getD NewGraph

/-- Witness for C5 on `demoCalls`. -/
theorem c5_link_outbound_witness :
    demoGraph.outboundOf 0 = demoGraph.outSum 0 :=
  c5_link_outbound demoCalls demoGraph (getD_of_isSome _ _ (by decide)) 0

/-! ## dir_graph.go: PageRank (`Rank`)

The Go loop mutates `nodes[*].ranking` in place while iterating Go maps;
in the exact rational model every iteration is an order-independent sum,
so the loop body is modelled as a function from the previous ranking
vector (indexed by dense node id) to the next one. -/

/-- The weight of `s → t`, or 0 when the pair is absent, over an edge list. -/
def wOf (es : List ((Nat × Nat) × GEdge)) (s t : Nat) : ℚ :=
  ((es.find? (fun e => e.1 = (s, t))).map (fun e => e.2.weight)).getD 0

theorem edgeWeight_eq_wOf (g : Graph) (s t : Nat) :
    g.edgeWeight s t = wOf g.edges s t := rfl

/-- `normalizedWeights[s][t]` from `Rank`: edge weights divided by the
source's outbound sum, for sources with positive outbound. -/
def Graph.normW (g : Graph) (s t : Nat) : ℚ :=
  if 0 < g.outboundOf s then g.edgeWeight s t / g.outboundOf s else 0

/-- One iteration of the `Rank` loop body: each node receives
`α · prev[src] · normW src t` along every edge, plus the teleport
`(1-α)/N` and the dangling-mass redistribution `leak/N`. -/
def Graph.rankStep (g : Graph) (α : ℚ) (prev : List ℚ) : List ℚ :=
  let N := g.nodes.length
  let leak := α * ∑ i in Finset.range N,
    (if g.outboundOf i = 0 then prev.getD i 0 else 0)
  (List.range N).map (fun t =>
    α * (∑ s in Finset.range N, prev.getD s 0 * g.normW s t)
      + (1 - α) * (1 / (N : ℚ)) + leak * (1 / (N : ℚ)))

/-- The initial ranking vector `1/N` for every node. -/
def Graph.rankInit (g : Graph) : List ℚ :=
  List.replicate g.nodes.length (1 / (g.nodes.length : ℚ))

/-- The ranking vector after `k` executions of the loop body. -/
def Graph.rankIter (g : Graph) (α : ℚ) : Nat → List ℚ
  | 0 => g.rankInit
  | k + 1 => g.rankStep α (g.rankIter α k)

/-- `Δ`: the L1 distance between two consecutive ranking vectors. -/
def Graph.rankDelta (g : Graph) (next prev : List ℚ) : ℚ :=
  ∑ i in Finset.range g.nodes.length, |next.getD i 0 - prev.getD i 0|

/-- The value of `Δ` checked by the loop before iteration `k + 1`
(`deltaSeq g α 0 = 1` models the initialization `Δ := 1.0`). -/
def Graph.deltaSeq (g : Graph) (α : ℚ) : Nat → ℚ
  | 0 => 1
  | k + 1 => g.rankDelta (g.rankIter α (k + 1)) (g.rankIter α k)

/-- The Go `for Δ > epsilon` loop exits exactly when some `Δ` value is
at most `ε`. -/
def Graph.RankTerminates (g : Graph) (α ε : ℚ) : Prop :=
  ∃ k, g.deltaSeq α k ≤ ε

/-- The `Rank` loop, with a fuel bound standing in for the unbounded Go
loop: runs the body until `Δ ≤ ε` (or fuel is exhausted). -/
def Graph.rankLoop (g : Graph) (α ε : ℚ) : Nat → List ℚ → List ℚ
  | 0, prev => prev
  | fuel + 1, prev =>
    let next := g.rankStep α prev
    if g.rankDelta next prev ≤ ε then next else g.rankLoop α ε fuel next

/-- Embeds `Rank` from dir_graph.go: rankings start uniform at `1/N` and
the loop body runs while `Δ > ε` (`Δ` is initialized to `1.0`, so for
`ε ≥ 1` the loop is skipped); the result is the final ranking vector. -/
def Graph.Rank (g : Graph) (α ε : ℚ) (fuel : Nat) : List ℚ :=
  if 1 ≤ ε then g.rankInit else g.rankLoop α ε fuel g.rankInit

theorem list_range_map_sum (n : Nat) (f : Nat → ℚ) :
    ((List.range n).map f).sum = ∑ i in Finset.range n, f i := by
  induction n with
  | zero => simp
  | succ n ih =>
    rw [List.range_succ, List.map_append, List.sum_append, Finset.sum_range_succ, ih]
    simp

theorem sum_getD (l : List ℚ) : ∑ i in Finset.range l.length, l.getD i 0 = l.sum := by
  induction l with
  | nil => simp
  | cons x xs ih =>
    rw [List.length_cons, Finset.sum_range_succ']
    simp only [List.getD_cons_succ, List.getD_cons_zero, List.sum_cons]
    rw [ih]
    ring

theorem wOf_zero_of_not_mem (es : List ((Nat × Nat) × GEdge)) (s t : Nat)
    (h : (s, t) ∉ es.map (fun e => e.1)) : wOf es s t = 0 := by
  rw [wOf, List.find?_eq_none.2]
  · rfl
  · intro e he
    simp only [decide_eq_true_eq]
    intro hfst
    exact h (by rw [← hfst]; exact List.mem_map_of_mem _ he)

theorem wOf_row_sum (es : List ((Nat × Nat) × GEdge)) (N s : Nat)
    (hnodup : (es.map (fun e => e.1)).Nodup)
    (htgt : ∀ e ∈ es, e.1.2 < N) :
    ∑ t in Finset.range N, wOf es s t
      = ((es.filter (fun e => e.1.1 = s)).map (fun e => e.2.weight)).sum := by
  induction es with
  | nil => simp [wOf]
  | cons he rest ih =>
    obtain ⟨⟨s0, t0⟩, e⟩ := he
    have hwcons : ∀ t, wOf (((s0, t0), e) :: rest) s t
        = if (s0, t0) = (s, t) then e.weight else wOf rest s t := by
      intro t
      rw [wOf, List.find?_cons]
      by_cases hk : (s0, t0) = (s, t)
      · simp [hk]
      · simp only [hk, if_neg hk, decide_eq_true_eq]
        rw [if_neg (by simpa using hk)]
        rfl
    have hnodup2 : (rest.map (fun e => e.1)).Nodup := (List.nodup_cons.1 hnodup).2
    have hni : (s0, t0) ∉ rest.map (fun e => e.1) := (List.nodup_cons.1 hnodup).1
    have htgt2 : ∀ e ∈ rest, e.1.2 < N := fun e he => htgt e (List.mem_cons_of_mem _ he)
    by_cases hs : s0 = s
    · subst hs
      have ht0 : t0 ∈ Finset.range N :=
        Finset.mem_range.2 (htgt ((s0, t0), e) (List.mem_cons_self _ _))
      rw [Finset.sum_congr rfl (fun t _ => hwcons t)]
      have hz : wOf rest s0 t0 = 0 := wOf_zero_of_not_mem rest s0 t0 hni
      have hsplit : ∀ t ∈ Finset.range N,
          (if (s0, t0) = (s0, t) then e.weight else wOf rest s0 t)
            = (if t = t0 then e.weight else 0) + wOf rest s0 t := by
        intro t _
        by_cases ht : t = t0
        · subst ht
          rw [if_pos rfl, if_pos rfl, hz]
          ring
        · rw [if_neg (fun hk => ht (congrArg Prod.snd hk).symm), if_neg ht]
          ring
      rw [Finset.sum_congr rfl hsplit, Finset.sum_add_distrib,
        Finset.sum_ite_eq' (Finset.range N) t0 (fun _ => e.weight), if_pos ht0,
        ih hnodup2 htgt2]
      simp [List.filter_cons]
    · rw [Finset.sum_congr rfl (fun t _ => hwcons t)]
      have : ∀ t ∈ Finset.range N, (if (s0, t0) = (s, t) then e.weight else wOf rest s t)
          = wOf rest s t := by
        intro t _
        rw [if_neg]
        intro hk
        exact hs (congrArg Prod.fst hk)
      rw [Finset.sum_congr rfl this, ih hnodup2 htgt2]
      simp only [List.filter_cons]
      rw [if_neg (by simpa using hs)]

theorem outSum_nonneg (g : Graph) (hnonneg : ∀ e ∈ g.edges, 0 ≤ e.2.weight)
    (i : Nat) : 0 ≤ g.outSum i := by
  apply List.sum_nonneg
  intro x hx
  simp only [List.mem_map] at hx
  obtain ⟨e, he, rfl⟩ := hx
  exact hnonneg e (List.mem_of_mem_filter he)

theorem edgeWeight_row_sum (g : Graph) (hwf : g.WF) (s : Nat) :
    ∑ t in Finset.range g.nodes.length, g.edgeWeight s t = g.outSum s := by
  rw [hwf.nodes_len]
  exact wOf_row_sum g.edges g.keys.length s hwf.edges_nodup hwf.edges_tgt

theorem normW_row_sum (g : Graph) (hwf : g.WF) (s : Nat) :
    ∑ t in Finset.range g.nodes.length, g.normW s t
      = if 0 < g.outboundOf s then 1 else 0 := by
  by_cases hpos : 0 < g.outboundOf s
  · simp only [Graph.normW, if_pos hpos]
    rw [← Finset.sum_div, edgeWeight_row_sum g hwf s, ← hwf.outbound_inv s]
    exact div_self (ne_of_gt hpos)
  · simp [Graph.normW, hpos]

/-- Mass conservation of one loop iteration: the new rankings sum to
`α · (Σ prev) + (1 - α)` whenever every node's outbound sum is
non-negative (negative outbound would lose mass: such nodes are neither
normalized nor counted as dangling). -/
theorem rankStep_sum (g : Graph) (α : ℚ) (prev : List ℚ) (hwf : g.WF)
    (hnonneg : ∀ e ∈ g.edges, 0 ≤ e.2.weight) (hN : 0 < g.nodes.length) :
    (g.rankStep α prev).sum
      = α * (∑ i in Finset.range g.nodes.length, prev.getD i 0) + (1 - α) := by
  have hout_nonneg : ∀ s, 0 ≤ g.outboundOf s := fun s => by
    rw [hwf.outbound_inv s]
    exact outSum_nonneg g hnonneg s
  have hNQ : ((g.nodes.length : ℚ)) ≠ 0 := by
    exact_mod_cast Nat.pos_iff_ne_zero.1 hN
  simp only [Graph.rankStep]
  rw [list_range_map_sum]
  rw [Finset.sum_add_distrib, Finset.sum_add_distrib, Finset.sum_const,
    Finset.card_range, nsmul_eq_mul, Finset.sum_const, Finset.card_range,
    nsmul_eq_mul]
  rw [← Finset.mul_sum, Finset.sum_comm]
  have hinner : ∀ s ∈ Finset.range g.nodes.length,
      (∑ t in Finset.range g.nodes.length, prev.getD s 0 * g.normW s t)
        = (if 0 < g.outboundOf s then prev.getD s 0 else 0) := by
    intro s _
    rw [← Finset.mul_sum, normW_row_sum g hwf s]
    by_cases hpos : 0 < g.outboundOf s
    · rw [if_pos hpos, if_pos hpos, mul_one]
    · rw [if_neg hpos, if_neg hpos, mul_zero]
  rw [Finset.sum_congr rfl hinner]
  have hsplit : (∑ s in Finset.range g.nodes.length,
      (if 0 < g.outboundOf s then prev.getD s 0 else 0))
        + (∑ s in Finset.range g.nodes.length,
            (if g.outboundOf s = 0 then prev.getD s 0 else 0))
      = ∑ s in Finset.range g.nodes.length, prev.getD s 0 := by
    rw [← Finset.sum_add_distrib]
    apply Finset.sum_congr rfl
    intro s _
    rcases lt_or_eq_of_le (hout_nonneg s) with hpos | heq
    · rw [if_pos hpos, if_neg hpos.ne', add_zero]
    · rw [if_neg (by rw [← heq]; exact lt_irrefl 0), if_pos heq.symm, zero_add]
  rw [← hsplit]
  field_simp
  ring

theorem rankStep_length (g : Graph) (α : ℚ) (prev : List ℚ) :
    (g.rankStep α prev).length = g.nodes.length := by
  simp [Graph.rankStep]

theorem rankInit_length (g : Graph) : g.rankInit.length = g.nodes.length := by
  simp [Graph.rankInit]

theorem rankInit_sum (g : Graph) (hN : 0 < g.nodes.length) : g.rankInit.sum = 1 := by
  rw [Graph.rankInit, List.sum_replicate, nsmul_eq_mul]
  have hNQ : ((g.nodes.length : ℚ)) ≠ 0 := by
    exact_mod_cast Nat.pos_iff_ne_zero.1 hN
  field_simp

/-- Mass conservation, iterated: any ranking vector of full length whose
entries sum to 1 still sums to 1 after a loop iteration. -/
theorem rankStep_sum_one (g : Graph) (α : ℚ) (prev : List ℚ) (hwf : g.WF)
    (hnonneg : ∀ e ∈ g.edges, 0 ≤ e.2.weight) (hN : 0 < g.nodes.length)
    (hlen : prev.length = g.nodes.length) (hsum : prev.sum = 1) :
    (g.rankStep α prev).sum = 1 := by
  rw [rankStep_sum g α prev hwf hnonneg hN]
  rw [← hlen, sum_getD, hsum]
  ring

theorem rankLoop_sum_one (g : Graph) (α ε : ℚ) (fuel : Nat) (prev : List ℚ)
    (hwf : g.WF) (hnonneg : ∀ e ∈ g.edges, 0 ≤ e.2.weight)
    (hN : 0 < g.nodes.length) (hlen : prev.length = g.nodes.length)
    (hsum : prev.sum = 1) : (g.rankLoop α ε fuel prev).sum = 1 := by
  induction fuel generalizing prev with
  | zero => exact hsum
  | succ fuel ih =>
    rw [Graph.rankLoop]
    by_cases hδ : g.rankDelta (g.rankStep α prev) prev ≤ ε
    · simp only [if_pos hδ]
      exact rankStep_sum_one g α prev hwf hnonneg hN hlen hsum
    · simp only [if_neg hδ]
      exact ih (g.rankStep α prev) (rankStep_length g α prev)
        (rankStep_sum_one g α prev hwf hnonneg hN hlen hsum)

/-- C6: on a well-formed graph with `N > 0` nodes and non-negative edge
weights, for every damping factor `α ≤ 1` and tolerance `ε > 0`, the
rankings produced by `Rank` (whether or not the loop has converged, in
particular whenever it terminates) sum to 1 exactly in the rational
model, hence within `N·ε·C` with `C = 1`. -/
theorem c6_rank_normalization (g : Graph) (α ε : ℚ) (fuel : Nat) (hwf : g.WF)
    (hnonneg : ∀ e ∈ g.edges, 0 ≤ e.2.weight) (hN : 0 < g.nodes.length)
    (_hα : α ≤ 1) (hε : 0 < ε) :
    |(g.Rank α ε fuel).sum - 1| ≤ (g.nodes.length : ℚ) * ε * 1 := by
  have hsum : (g.Rank α ε fuel).sum = 1 := by
    rw [Graph.Rank]
    by_cases h1 : (1:ℚ) ≤ ε
    · rw [if_pos h1]
      exact rankInit_sum g hN
    · rw [if_neg h1]
      exact rankLoop_sum_one g α ε fuel g.rankInit hwf hnonneg hN
        (rankInit_length g) (rankInit_sum g hN)
  rw [hsum]
  simp only [sub_self, abs_zero, mul_one]
  positivity

theorem updEdges_nonneg (es : List ((Nat × Nat) × GEdge)) (key : Nat × Nat)
    (w : ℚ) (h t : Int) (hes : ∀ e ∈ es, 0 ≤ e.2.weight) (hw : 0 ≤ w) :
    ∀ e ∈ updEdges es key w h t, 0 ≤ e.2.weight := by
  induction es with
  | nil =>
    intro e he
    rw [updEdges] at he
    simp only [List.mem_singleton] at he
    subst he
    exact hw
  | cons hd rest ih =>
    obtain ⟨k, e0⟩ := hd
    intro e he
    rw [updEdges] at he
    by_cases hkey : k = key
    · rw [if_pos hkey] at he
      simp only [List.mem_cons] at he
      rcases he with he | he
      · subst he
        exact add_nonneg (hes (k, e0) (List.mem_cons_self _ _)) hw
      · exact hes e (List.mem_cons_of_mem _ he)
    · rw [if_neg hkey] at he
      simp only [List.mem_cons] at he
      rcases he with he | he
      · subst he
        exact hes (k, e0) (List.mem_cons_self _ _)
      · exact ih (fun e2 he2 => hes e2 (List.mem_cons_of_mem _ he2)) e he

/-- `Link` with a non-negative weight preserves non-negativity of all
stored edge weights. -/
theorem link_nonneg (g : Graph) (src tgt : Str) (w : ℚ) (h t : Int) (g2 : Graph)
    (hg : ∀ e ∈ g.edges, 0 ≤ e.2.weight) (hw : 0 ≤ w)
    (heq : g.link src tgt w h t = some g2) : ∀ e ∈ g2.edges, 0 ≤ e.2.weight := by
  cases hps : pad44 src with
  | none => rw [Graph.link, hps] at heq; exact Option.noConfusion heq
  | some source =>
  cases hpt : pad44 tgt with
  | none => rw [Graph.link, hps, hpt] at heq; exact Option.noConfusion heq
  | some target =>
  rw [Graph.link, hps, hpt] at heq
  simp only [Option.bind_eq_bind, Option.some_bind, Option.some.injEq] at heq
  rw [← heq]
  have hIedges : ((g.getOrInsert source).1.getOrInsert target).1.edges = g.edges := by
    rw [getOrInsert_edges, getOrInsert_edges]
  intro e he
  simp only [hIedges] at he
  exact updEdges_nonneg g.edges _ w _ _ hg hw e he

/-- A sequence of `Link` calls with non-negative weights yields a graph
with non-negative edge weights. -/
theorem runLinks_nonneg (calls : List LinkCall) (g0 g : Graph)
    (hg0 : ∀ e ∈ g0.edges, 0 ≤ e.2.weight)
    (hcalls : ∀ c ∈ calls, 0 ≤ c.weight)
    (h : runLinks g0 calls = some g) : ∀ e ∈ g.edges, 0 ≤ e.2.weight := by
  induction calls generalizing g0 with
  | nil =>
    rw [runLinks, List.foldlM_nil] at h
    cases h
    exact hg0
  | cons c rest ih =>
    rw [runLinks, List.foldlM_cons] at h
    cases hlink : g0.link c.src c.tgt c.weight c.height c.time with
    | none => rw [hlink] at h; exact Option.noConfusion h
    | some g1 =>
      rw [hlink] at h
      exact ih g1 (link_nonneg g0 c.src c.tgt c.weight c.height c.time g1 hg0
          (hcalls c (List.mem_cons_self _ _)) hlink)
        (fun c2 hc2 => hcalls c2 (List.mem_cons_of_mem _ hc2)) h

/-- Witness for C6 on the graph built by `demoCalls`, with `α = 1`,
`ε = 1/1000000` (the indexer's invocation) and fuel 5. -/
theorem c6_rank_normalization_witness :
    |(demoGraph.Rank 1 (1/1000000) 5).sum - 1|
      ≤ (demoGraph.nodes.length : ℚ) * (1/1000000) * 1 :=
  c6_rank_normalization demoGraph 1 (1/1000000) 5
    (runLinks_wf demoCalls NewGraph demoGraph newGraph_wf
      (getD_of_isSome _ _ (by decide)))
    (runLinks_nonneg demoCalls NewGraph demoGraph (by decide) (by decide)
      (getD_of_isSome _ _ (by decide)))
    (by decide) (by norm_num) (by norm_num)

theorem getD_map_range (N t : Nat) (f : Nat → ℚ) (ht : t < N) :
    ((List.range N).map f).getD t 0 = f t := by
  rw [List.getD_eq_getD_get?, List.get?_map, List.get?_range ht]
  rfl

theorem option_map_getD_nonneg {β : Type} (o : Option β) (f : β → ℚ)
    (h : ∀ b ∈ o, 0 ≤ f b) : 0 ≤ (o.map f).getD 0 := by
  cases o with
  | none => simp
  | some b => simpa using h b rfl

theorem wOf_nonneg (es : List ((Nat × Nat) × GEdge))
    (hes : ∀ e ∈ es, 0 ≤ e.2.weight) (s t : Nat) : 0 ≤ wOf es s t := by
  rw [wOf]
  apply option_map_getD_nonneg
  intro e he
  exact hes e (List.mem_of_find?_eq_some (Option.mem_def.1 he))

theorem normW_nonneg (g : Graph) (hnonneg : ∀ e ∈ g.edges, 0 ≤ e.2.weight)
    (s t : Nat) : 0 ≤ g.normW s t := by
  rw [Graph.normW]
  by_cases hpos : 0 < g.outboundOf s
  · rw [if_pos hpos]
    exact div_nonneg (wOf_nonneg g.edges hnonneg s t) (le_of_lt hpos)
  · rw [if_neg hpos]

theorem sum_split_outbound (g : Graph) (hwf : g.WF)
    (hnonneg : ∀ e ∈ g.edges, 0 ≤ e.2.weight) (f : Nat → ℚ) :
    (∑ s in Finset.range g.nodes.length, if 0 < g.outboundOf s then f s else 0)
      + (∑ s in Finset.range g.nodes.length, if g.outboundOf s = 0 then f s else 0)
      = ∑ s in Finset.range g.nodes.length, f s := by
  rw [← Finset.sum_add_distrib]
  apply Finset.sum_congr rfl
  intro s _
  have hout : 0 ≤ g.outboundOf s := by
    rw [hwf.outbound_inv s]
    exact outSum_nonneg g hnonneg s
  rcases lt_or_eq_of_le hout with hpos | heq
  · rw [if_pos hpos, if_neg hpos.ne', add_zero]
  · rw [if_neg (by rw [← heq]; exact lt_irrefl 0), if_pos heq.symm, zero_add]

theorem rankStep_getD (g : Graph) (α : ℚ) (x : List ℚ) (t : Nat)
    (ht : t < g.nodes.length) :
    (g.rankStep α x).getD t 0
      = α * (∑ s in Finset.range g.nodes.length, x.getD s 0 * g.normW s t)
        + (1 - α) * (1 / (g.nodes.length : ℚ))
        + (α * ∑ i in Finset.range g.nodes.length,
            (if g.outboundOf i = 0 then x.getD i 0 else 0))
          * (1 / (g.nodes.length : ℚ)) := by
  simp only [Graph.rankStep]
  rw [getD_map_range _ _ _ ht]

/-- One loop iteration is an L1 contraction with factor `α`: the distance
between the images of two ranking vectors is at most `α` times their
distance (non-negative weights; dangling mass is redistributed uniformly). -/
theorem rankStep_contract (g : Graph) (α : ℚ) (x y : List ℚ) (hwf : g.WF)
    (hnonneg : ∀ e ∈ g.edges, 0 ≤ e.2.weight) (hN : 0 < g.nodes.length)
    (hα0 : 0 ≤ α) :
    g.rankDelta (g.rankStep α x) (g.rankStep α y) ≤ α * g.rankDelta x y := by
  have hNQ : ((g.nodes.length : ℚ)) ≠ 0 := by
    exact_mod_cast Nat.pos_iff_ne_zero.1 hN
  have hinv0 : (0:ℚ) ≤ 1 / (g.nodes.length : ℚ) := by positivity
  have hdiff : ∀ t ∈ Finset.range g.nodes.length,
      (g.rankStep α x).getD t 0 - (g.rankStep α y).getD t 0
        = α * (∑ s in Finset.range g.nodes.length,
            (x.getD s 0 - y.getD s 0) * g.normW s t)
          + α * (∑ i in Finset.range g.nodes.length,
              (if g.outboundOf i = 0 then x.getD i 0 - y.getD i 0 else 0))
            * (1 / (g.nodes.length : ℚ)) := by
    intro t htm
    have ht := Finset.mem_range.1 htm
    rw [rankStep_getD g α x t ht, rankStep_getD g α y t ht]
    have h1 : ∑ s in Finset.range g.nodes.length,
        (x.getD s 0 - y.getD s 0) * g.normW s t
          = (∑ s in Finset.range g.nodes.length, x.getD s 0 * g.normW s t)
            - ∑ s in Finset.range g.nodes.length, y.getD s 0 * g.normW s t := by
      rw [← Finset.sum_sub_distrib]
      exact Finset.sum_congr rfl (fun s _ => sub_mul _ _ _)
    have h2 : ∑ i in Finset.range g.nodes.length,
        (if g.outboundOf i = 0 then x.getD i 0 - y.getD i 0 else 0)
          = (∑ i in Finset.range g.nodes.length,
              (if g.outboundOf i = 0 then x.getD i 0 else 0))
            - ∑ i in Finset.range g.nodes.length,
                (if g.outboundOf i = 0 then y.getD i 0 else 0) := by
      rw [← Finset.sum_sub_distrib]
      apply Finset.sum_congr rfl
      intro i _
      by_cases hc : g.outboundOf i = 0
      · rw [if_pos hc, if_pos hc, if_pos hc]
      · rw [if_neg hc, if_neg hc, if_neg hc, sub_zero]
    rw [h1, h2]
    ring
  have habs : ∀ t ∈ Finset.range g.nodes.length,
      |(g.rankStep α x).getD t 0 - (g.rankStep α y).getD t 0|
        ≤ α * (∑ s in Finset.range g.nodes.length,
            |x.getD s 0 - y.getD s 0| * g.normW s t)
          + α * |∑ i in Finset.range g.nodes.length,
              (if g.outboundOf i = 0 then x.getD i 0 - y.getD i 0 else 0)|
            * (1 / (g.nodes.length : ℚ)) := by
    intro t htm
    rw [hdiff t htm]
    refine le_trans (abs_add _ _) ?_
    have hA : |α * (∑ s in Finset.range g.nodes.length,
        (x.getD s 0 - y.getD s 0) * g.normW s t)|
          ≤ α * ∑ s in Finset.range g.nodes.length,
              |x.getD s 0 - y.getD s 0| * g.normW s t := by
      rw [abs_mul, abs_of_nonneg hα0]
      apply mul_le_mul_of_nonneg_left _ hα0
      refine le_trans (Finset.abs_sum_le_sum_abs _ _) ?_
      apply Finset.sum_le_sum
      intro s _
      rw [abs_mul, abs_of_nonneg (normW_nonneg g hnonneg s t)]
    have hB : |α * (∑ i in Finset.range g.nodes.length,
        (if g.outboundOf i = 0 then x.getD i 0 - y.getD i 0 else 0))
          * (1 / (g.nodes.length : ℚ))|
        = α * |∑ i in Finset.range g.nodes.length,
            (if g.outboundOf i = 0 then x.getD i 0 - y.getD i 0 else 0)|
          * (1 / (g.nodes.length : ℚ)) := by
      rw [abs_mul, abs_mul, abs_of_nonneg hα0, abs_of_nonneg hinv0]
    rw [hB]
    exact add_le_add_right hA _
  rw [Graph.rankDelta]
  refine le_trans (Finset.sum_le_sum habs) ?_
  rw [Finset.sum_add_distrib, ← Finset.mul_sum, Finset.sum_const,
    Finset.card_range, nsmul_eq_mul, Finset.sum_comm]
  have hrows : ∀ s ∈ Finset.range g.nodes.length,
      (∑ t in Finset.range g.nodes.length,
          |x.getD s 0 - y.getD s 0| * g.normW s t)
        = (if 0 < g.outboundOf s then |x.getD s 0 - y.getD s 0| else 0) := by
    intro s _
    rw [← Finset.mul_sum, normW_row_sum g hwf s]
    by_cases hpos : 0 < g.outboundOf s
    · rw [if_pos hpos, if_pos hpos, mul_one]
    · rw [if_neg hpos, if_neg hpos, mul_zero]
  rw [Finset.sum_congr rfl hrows]
  have hLDbound : |∑ i in Finset.range g.nodes.length,
      (if g.outboundOf i = 0 then x.getD i 0 - y.getD i 0 else 0)|
        ≤ ∑ i in Finset.range g.nodes.length,
            (if g.outboundOf i = 0 then |x.getD i 0 - y.getD i 0| else 0) := by
    refine le_trans (Finset.abs_sum_le_sum_abs _ _) ?_
    apply Finset.sum_le_sum
    intro i _
    by_cases hc : g.outboundOf i = 0
    · rw [if_pos hc, if_pos hc]
    · rw [if_neg hc, if_neg hc, abs_zero]
  have hN1 : ((g.nodes.length : ℚ))
      * (α * |∑ i in Finset.range g.nodes.length,
          (if g.outboundOf i = 0 then x.getD i 0 - y.getD i 0 else 0)|
        * (1 / (g.nodes.length : ℚ)))
      = α * |∑ i in Finset.range g.nodes.length,
          (if g.outboundOf i = 0 then x.getD i 0 - y.getD i 0 else 0)| := by
    field_simp
  rw [hN1]
  have hfinal : α * (∑ s in Finset.range g.nodes.length,
      (if 0 < g.outboundOf s then |x.getD s 0 - y.getD s 0| else 0))
        + α * |∑ i in Finset.range g.nodes.length,
            (if g.outboundOf i = 0 then x.getD i 0 - y.getD i 0 else 0)|
      ≤ α * (∑ s in Finset.range g.nodes.length,
          (if 0 < g.outboundOf s then |x.getD s 0 - y.getD s 0| else 0))
        + α * (∑ i in Finset.range g.nodes.length,
            (if g.outboundOf i = 0 then |x.getD i 0 - y.getD i 0| else 0)) :=
    add_le_add_left (mul_le_mul_of_nonneg_left hLDbound hα0) _
  refine le_trans hfinal ?_
  rw [← mul_add, sum_split_outbound g hwf hnonneg (fun s => |x.getD s 0 - y.getD s 0|)]
  rw [Graph.rankDelta]

theorem rankIter_length (g : Graph) (α : ℚ) (k : Nat) :
    (g.rankIter α k).length = g.nodes.length := by
  cases k with
  | zero => exact rankInit_length g
  | succ k => exact rankStep_length g α _

theorem rankIter_sum_one (g : Graph) (α : ℚ) (hwf : g.WF)
    (hnonneg : ∀ e ∈ g.edges, 0 ≤ e.2.weight) (hN : 0 < g.nodes.length)
    (k : Nat) : (g.rankIter α k).sum = 1 := by
  induction k with
  | zero => exact rankInit_sum g hN
  | succ k ih =>
    exact rankStep_sum_one g α _ hwf hnonneg hN (rankIter_length g α k) ih

theorem getD_replicate (n t : Nat) (v : ℚ) :
    (List.replicate n v).getD t 0 = if t < n then v else 0 := by
  induction n generalizing t with
  | zero => simp
  | succ n ih =>
    cases t with
    | zero => simp [List.replicate_succ]
    | succ t2 =>
      rw [List.replicate_succ, List.getD_cons_succ, ih]
      by_cases h : t2 < n
      · rw [if_pos h, if_pos (by omega)]
      · rw [if_neg h, if_neg (by omega)]

theorem rankIter_nonneg (g : Graph) (α : ℚ) (hwf : g.WF)
    (hnonneg : ∀ e ∈ g.edges, 0 ≤ e.2.weight) (hα0 : 0 ≤ α) (hα1 : α ≤ 1)
    (k : Nat) : ∀ t, 0 ≤ (g.rankIter α k).getD t 0 := by
  induction k with
  | zero =>
    intro t
    rw [Graph.rankIter, Graph.rankInit, getD_replicate]
    by_cases ht : t < g.nodes.length
    · rw [if_pos ht]
      positivity
    · rw [if_neg ht]
  | succ k ih =>
    intro t
    by_cases ht : t < g.nodes.length
    · rw [Graph.rankIter, rankStep_getD g α _ t ht]
      have h1 : 0 ≤ ∑ s in Finset.range g.nodes.length,
          (g.rankIter α k).getD s 0 * g.normW s t :=
        Finset.sum_nonneg (fun s _ =>
          mul_nonneg (ih s) (normW_nonneg g hnonneg s t))
      have h2 : 0 ≤ ∑ i in Finset.range g.nodes.length,
          (if g.outboundOf i = 0 then (g.rankIter α k).getD i 0 else 0) :=
        Finset.sum_nonneg (fun i _ => by
          by_cases hc : g.outboundOf i = 0
          · rw [if_pos hc]; exact ih i
          · rw [if_neg hc])
      have hinv0 : (0:ℚ) ≤ 1 / (g.nodes.length : ℚ) := by positivity
      have hα1' : (0:ℚ) ≤ 1 - α := by linarith
      positivity
    · rw [List.getD_eq_default]
      rw [rankIter_length]
      omega

/-- The first computed `Δ` is at most 2 (the L1 distance of two
probability vectors). -/
theorem deltaSeq_one_le_two (g : Graph) (α : ℚ) (hwf : g.WF)
    (hnonneg : ∀ e ∈ g.edges, 0 ≤ e.2.weight) (hN : 0 < g.nodes.length)
    (hα0 : 0 ≤ α) (hα1 : α ≤ 1) : g.deltaSeq α 1 ≤ 2 := by
  rw [Graph.deltaSeq, Graph.rankDelta]
  have hbound : ∀ t ∈ Finset.range g.nodes.length,
      |(g.rankIter α 1).getD t 0 - (g.rankIter α 0).getD t 0|
        ≤ (g.rankIter α 1).getD t 0 + (g.rankIter α 0).getD t 0 := by
    intro t _
    have h1 := rankIter_nonneg g α hwf hnonneg hα0 hα1 1 t
    have h0 := rankIter_nonneg g α hwf hnonneg hα0 hα1 0 t
    rw [abs_sub_le_iff]
    constructor <;> linarith
  refine le_trans (Finset.sum_le_sum hbound) ?_
  rw [Finset.sum_add_distrib]
  have hs1 : ∑ t in Finset.range g.nodes.length, (g.rankIter α 1).getD t 0 = 1 := by
    rw [← rankIter_length g α 1, sum_getD]
    exact rankIter_sum_one g α hwf hnonneg hN 1
  have hs0 : ∑ t in Finset.range g.nodes.length, (g.rankIter α 0).getD t 0 = 1 := by
    rw [← rankIter_length g α 0, sum_getD]
    exact rankIter_sum_one g α hwf hnonneg hN 0
  rw [hs1, hs0]
  norm_num

theorem deltaSeq_geom (g : Graph) (α : ℚ) (hwf : g.WF)
    (hnonneg : ∀ e ∈ g.edges, 0 ≤ e.2.weight) (hN : 0 < g.nodes.length)
    (hα0 : 0 ≤ α) (k : Nat) :
    g.deltaSeq α (k + 1) ≤ α ^ k * g.deltaSeq α 1 := by
  induction k with
  | zero => simp
  | succ k ih =>
    have hstep : g.deltaSeq α (k + 2) ≤ α * g.deltaSeq α (k + 1) := by
      have : g.deltaSeq α (k + 2)
          = g.rankDelta (g.rankStep α (g.rankIter α (k + 1)))
              (g.rankStep α (g.rankIter α k)) := rfl
      rw [this]
      exact rankStep_contract g α (g.rankIter α (k + 1)) (g.rankIter α k)
        hwf hnonneg hN hα0
    calc g.deltaSeq α (k + 2) ≤ α * g.deltaSeq α (k + 1) := hstep
    _ ≤ α * (α ^ k * g.deltaSeq α 1) := mul_le_mul_of_nonneg_left ih hα0
    _ = α ^ (k + 1) * g.deltaSeq α 1 := by ring

/-- C7 (amended): on a well-formed graph with `N > 0` nodes and
non-negative edge weights, `Rank(α, ε)` terminates for every damping
factor `0 < α < 1` and every tolerance `ε > 0` (geometric decay of `Δ`).
With `α = 1` — the indexer's actual invocation — termination can fail
(see the counterexample). -/
theorem c7_rank_terminates_amended (g : Graph) (α ε : ℚ) (hwf : g.WF)
    (hnonneg : ∀ e ∈ g.edges, 0 ≤ e.2.weight) (hN : 0 < g.nodes.length)
    (hα0 : 0 < α) (hα1 : α < 1) (hε : 0 < ε) : g.RankTerminates α ε := by
  obtain ⟨k, hk⟩ := exists_pow_lt_of_lt_one (show (0:ℚ) < ε / 2 by positivity) hα1
  refine ⟨k + 1, ?_⟩
  have h1 : g.deltaSeq α (k + 1) ≤ α ^ k * g.deltaSeq α 1 :=
    deltaSeq_geom g α hwf hnonneg hN hα0.le k
  have h2 : α ^ k * g.deltaSeq α 1 ≤ α ^ k * 2 :=
    mul_le_mul_of_nonneg_left
      (deltaSeq_one_le_two g α hwf hnonneg hN hα0.le hα1.le)
      (pow_nonneg hα0.le k)
  have h3 : α ^ k * 2 < ε := by linarith
  linarith

/-- Witness for C7 (amended) on the graph built by `demoCalls` with
`α = 1/2`, `ε = 1/10`. -/
theorem c7_rank_terminates_amended_witness :
    demoGraph.RankTerminates (1/2) (1/10) :=
  c7_rank_terminates_amended demoGraph (1/2) (1/10)
    (runLinks_wf demoCalls NewGraph demoGraph newGraph_wf
      (getD_of_isSome _ _ (by decide)))
    (runLinks_nonneg demoCalls NewGraph demoGraph (by decide) (by decide)
      (getD_of_isSome _ _ (by decide)))
    (by decide) (by norm_num) (by norm_num) (by norm_num)

/-- A 3-node graph `a → b`, `b → a`, `c → a` with unit weights (keys in
canonical padded form, matching what three `Link` calls would build).
With `α = 1` there is no teleport and no dangling node, and power
iteration from the uniform vector oscillates with period 2. -/
def oscGraph : Graph :=
  { keys := [(pad44 ['a']).getD [], (pad44 ['b']).getD [], (pad44 ['c']).getD []]
    nodes := [⟨(pad44 ['a']).getD [], 0, 1⟩, ⟨(pad44 ['b']).getD [], 0, 1⟩,
              ⟨(pad44 ['c']).getD [], 0, 1⟩]
    edges := [((0, 1), ⟨1, 0, 0⟩), ((1, 0), ⟨1, 0, 1⟩), ((2, 0), ⟨1, 0, 2⟩)] }

theorem oscGraph_wf : oscGraph.WF := by
  refine ⟨rfl, by decide, by decide, by decide, ?_⟩
  intro i
  match i with
  | 0 => norm_num [Graph.outboundOf, Graph.outSum, oscGraph, List.filter]
  | 1 => norm_num [Graph.outboundOf, Graph.outSum, oscGraph, List.filter]
  | 2 => norm_num [Graph.outboundOf, Graph.outSum, oscGraph, List.filter]
  | (n + 3) =>
    have hfil : oscGraph.edges.filter (fun e => e.1.1 = (n + 3 : Nat)) = [] := by
      rw [List.filter_eq_nil]
      intro a ha
      simp only [oscGraph, List.mem_cons, List.not_mem_nil, or_false] at ha
      rcases ha with rfl | rfl | rfl <;> simp
    simp [Graph.outboundOf, Graph.outSum, oscGraph, hfil]

theorem oscGraph_nonneg : ∀ e ∈ oscGraph.edges, 0 ≤ e.2.weight := by decide

theorem osc_norm_vals :
    oscGraph.normW 0 0 = 0 ∧ oscGraph.normW 1 0 = 1 ∧ oscGraph.normW 2 0 = 1 ∧
    oscGraph.normW 0 1 = 1 ∧ oscGraph.normW 1 1 = 0 ∧ oscGraph.normW 2 1 = 0 ∧
    oscGraph.normW 0 2 = 0 ∧ oscGraph.normW 1 2 = 0 ∧ oscGraph.normW 2 2 = 0 := by
  refine ⟨?_, ?_, ?_, ?_, ?_, ?_, ?_, ?_, ?_⟩ <;>
    norm_num [Graph.normW, Graph.outboundOf, Graph.edgeWeight, wOf, oscGraph,
      List.find?]

theorem osc_step (p : List ℚ) :
    oscGraph.rankStep 1 p = [p.getD 1 0 + p.getD 2 0, p.getD 0 0, 0] := by
  obtain ⟨n00, n10, n20, n01, n11, n21, n02, n12, n22⟩ := osc_norm_vals
  have hlen : oscGraph.nodes.length = 3 := rfl
  have ho0 : oscGraph.outboundOf 0 = 1 := rfl
  have ho1 : oscGraph.outboundOf 1 = 1 := rfl
  have ho2 : oscGraph.outboundOf 2 = 1 := rfl
  simp only [Graph.rankStep, hlen]
  rw [show List.range 3 = [0, 1, 2] from by decide]
  simp only [List.map_cons, List.map_nil, Finset.sum_range_succ,
    Finset.sum_range_zero, n00, n10, n20, n01, n11, n21, n02, n12, n22,
    ho0, ho1, ho2]
  norm_num

theorem osc_iter_one : oscGraph.rankIter 1 1 = [2/3, 1/3, 0] := by
  have : oscGraph.rankIter 1 1 = oscGraph.rankStep 1 oscGraph.rankInit := rfl
  rw [this, osc_step]
  have hinit : oscGraph.rankInit = [1/3, 1/3, 1/3] := by
    rw [Graph.rankInit]
    rw [show oscGraph.nodes.length = 3 from rfl]
    norm_num [List.replicate]
  rw [hinit]
  norm_num

theorem osc_step_v1 : oscGraph.rankStep 1 [2/3, 1/3, 0] = [1/3, 2/3, 0] := by
  rw [osc_step]
  norm_num

theorem osc_step_v2 : oscGraph.rankStep 1 [1/3, 2/3, 0] = [2/3, 1/3, 0] := by
  rw [osc_step]
  norm_num

theorem osc_iter (k : Nat) :
    oscGraph.rankIter 1 (2 * k + 1) = [2/3, 1/3, 0] ∧
    oscGraph.rankIter 1 (2 * k + 2) = [1/3, 2/3, 0] := by
  induction k with
  | zero =>
    refine ⟨osc_iter_one, ?_⟩
    have : oscGraph.rankIter 1 2 = oscGraph.rankStep 1 (oscGraph.rankIter 1 1) := rfl
    rw [show 2 * 0 + 2 = 2 from rfl, this, osc_iter_one, osc_step_v1]
  | succ k ih =>
    have hsucc : ∀ n, oscGraph.rankIter 1 (n + 1)
        = oscGraph.rankStep 1 (oscGraph.rankIter 1 n) := fun n => rfl
    constructor
    · rw [show 2 * (k + 1) + 1 = (2 * k + 2) + 1 from by ring, hsucc, ih.2,
        osc_step_v2]
    · rw [show 2 * (k + 1) + 2 = ((2 * k + 2) + 1) + 1 from by ring, hsucc,
        hsucc, ih.2, osc_step_v2, osc_step_v1]

theorem osc_rankDelta_val (a b : List ℚ) :
    oscGraph.rankDelta a b
      = |a.getD 0 0 - b.getD 0 0| + |a.getD 1 0 - b.getD 1 0|
        + |a.getD 2 0 - b.getD 2 0| := by
  rw [Graph.rankDelta, show oscGraph.nodes.length = 3 from rfl]
  simp [Finset.sum_range_succ]

theorem osc_delta (k : Nat) : oscGraph.deltaSeq 1 (k + 1) = 2/3 := by
  cases k with
  | zero =>
    have : oscGraph.deltaSeq 1 1
        = oscGraph.rankDelta (oscGraph.rankIter 1 1) (oscGraph.rankIter 1 0) := rfl
    rw [this, osc_iter_one]
    have hinit : oscGraph.rankIter 1 0 = [1/3, 1/3, 1/3] := by
      show oscGraph.rankInit = _
      rw [Graph.rankInit, show oscGraph.nodes.length = 3 from rfl]
      norm_num [List.replicate]
    rw [hinit, osc_rankDelta_val]
    have h13 : |(1/3 : ℚ)| = 1/3 := abs_of_nonneg (by norm_num)
    norm_num [h13]
  | succ j =>
    have hd : oscGraph.deltaSeq 1 (j + 2)
        = oscGraph.rankDelta (oscGraph.rankIter 1 (j + 2))
            (oscGraph.rankIter 1 (j + 1)) := rfl
    rcases Nat.even_or_odd j with ⟨m, hm⟩ | ⟨m, hm⟩
    · subst hm
      have e1 := (osc_iter m).1
      have e2 := (osc_iter m).2
      rw [hd, show m + m + 2 = 2 * m + 2 from by ring,
        show m + m + 1 = 2 * m + 1 from by ring, e1, e2, osc_rankDelta_val]
      have h13 : |(1/3 : ℚ)| = 1/3 := abs_of_nonneg (by norm_num)
      norm_num [h13]
    · subst hm
      have e2 := (osc_iter m).2
      have e1 := (osc_iter (m + 1)).1
      rw [hd, show 2 * m + 1 + 2 = 2 * (m + 1) + 1 from by ring,
        show 2 * m + 1 + 1 = 2 * m + 2 from by ring, e1, e2, osc_rankDelta_val]
      have h13 : |(1/3 : ℚ)| = 1/3 := abs_of_nonneg (by norm_num)
      norm_num [h13]

/-- C7 (counterexample): `Rank` need not terminate.  On the well-formed
3-node graph `a → b`, `b → a`, `c → a` with unit weights (`N = 3 > 0`,
non-negative weights, `0 < α = 1 ≤ 1`, `ε = 10⁻⁶ > 0` — the indexer's own
`Rank(1.0, 1e-6)` parameters), every computed `Δ` from the first
iteration on equals `2/3`, so the `for Δ > ε` loop never exits. -/
theorem c7_rank_terminates_cex :
    oscGraph.WF ∧ (∀ e ∈ oscGraph.edges, 0 ≤ e.2.weight) ∧
    0 < oscGraph.nodes.length ∧ ((0:ℚ) < 1 ∧ (1:ℚ) ≤ 1) ∧ (0:ℚ) < 1/1000000 ∧
    ¬ oscGraph.RankTerminates 1 (1/1000000) := by
  refine ⟨oscGraph_wf, oscGraph_nonneg, by decide, ⟨by norm_num, le_refl 1⟩,
    by norm_num, ?_⟩
  rintro ⟨k, hk⟩
  cases k with
  | zero =>
    rw [show oscGraph.deltaSeq 1 0 = 1 from rfl] at hk
    norm_num at hk
  | succ j =>
    rw [osc_delta j] at hk
    norm_num at hk

/-! ## dir_graph.go: cycle detection (`IsParentDescendant` / `dfs`) -/

/-- The targets of the edges leaving `i` (Go iterates the inner map
`g.edges[current]`; the model lists them in edge-insertion order, which is
immaterial for reachability). -/
def Graph.succs (g : Graph) (i : Nat) : List Nat :=
  (g.edges.filter (fun e => e.1.1 = i)).map (fun e => e.1.2)

mutual

/-- Embeds `dfs` from dir_graph.go: depth-first search from `current` for
`target`, marking `visited` (threaded through sibling calls exactly like
Go's shared map), skipping edges into node 0.  The Go recursion
terminates because every recursive call is on an unvisited node; the
model makes this explicit with a fuel argument (callers pass
`g.keys.length + 1`, which never runs out — see the completeness lemma). -/
def dfsNode (g : Graph) (fuel : Nat) (target current : Nat)
    (visited : List Nat) : Bool × List Nat :=
  match fuel with
  | 0 => (false, visited)
  | fuel + 1 =>
    if current = target then (true, visited)
    else dfsSuccs g fuel target (g.succs current) (current :: visited)
termination_by (fuel, 0)

/-- The `for edge := range g.edges[current]` loop inside `dfs`. -/
def dfsSuccs (g : Graph) (fuel : Nat) (target : Nat) (es : List Nat)
    (visited : List Nat) : Bool × List Nat :=
  match es with
  | [] => (false, visited)
  | e :: rest =>
    if e = 0 then dfsSuccs g fuel target rest visited
    else if e ∈ visited then dfsSuccs g fuel target rest visited
    else
      match dfsNode g fuel target e visited with
      | (true, v) => (true, v)
      | (false, v) => dfsSuccs g fuel target rest v
termination_by (fuel, es.length + 1)

end

/-- Embeds `IsParentDescendant` from dir_graph.go: false when either key
is absent or resolves to index 0; otherwise a DFS from `parent` looking
for `descendant`. -/
def Graph.IsParentDescendant (g : Graph) (parent descendant : Str) : Bool :=
  match g.indexOf parent, g.indexOf descendant with
  | some parentIndex, some descendantIndex =>
    if parentIndex = 0 ∨ descendantIndex = 0 then false
    else (dfsNode g (g.keys.length + 1) descendantIndex parentIndex []).1
  | _, _ => false

/-! ## The indexer: path codec -/

/-- The segment list of `inflateNodes` just before the inflation loop:
split the `"0="`-trimmed key on `'/'` and drop a trailing all-`'+'`
revision segment. -/
def inflateSegments (pubKey : Str) : List Str :=
  let splitPK := splitChar '/' (trimRightCut ['0', '='] pubKey)
  if trimCut ['+'] (splitPK.getLastD []) = [] then splitPK.dropLast else splitPK

/-- The body of the inflation loop: fold the successor's leading `'+'`
run (as Go computes it, `strings.Split(next, strings.Trim(next, "+"))[0]`)
onto the current node. -/
def inflateStep (segs : List Str) (i : Nat) (node : Str) : Str :=
  match segs.get? (i + 1) with
  | some next =>
    if ['+'].isPrefixOf next then
      node ++ ['/'] ++ firstField next (trimCut ['+'] next)
    else node
  | none => node

/-- Embeds `inflateNodes` from the indexer.  Validation trims
`"/+0="` and splits on `'/'`; the real pass trims only `"0="`, detects a
trailing all-`'+'` revision segment (`inflateSegments`), and folds each
successor's leading `'+'` run onto its predecessor (`inflateStep`).  The
Go loop mutates `nodes[i]` in place but only ever reads `nodes[i+1]`
before it is rewritten, so it is the index-wise map over the original
list. -/
def inflateNodes (pubKey : Str) : Bool × Str × List Str × Nat :=
  let trimmed := trimRightCut ['/', '+', '0', '='] pubKey
  let splitPK := splitChar '/' trimmed
  if splitPK.length = 0 ∨ splitPK.headD [] = [] then (false, [], [], 0)
  else if splitPK.any (fun seg => seg = []) then (false, [], [pubKey], 0)
  else
    let splitPK := splitChar '/' (trimRightCut ['0', '='] pubKey)
    let rootdir := splitPK.headD []
    let last := splitPK.getLastD []
    let isRev := trimCut ['+'] last = []
    let revision := if isRev then last.length else 0
    let nodes := if isRev then splitPK.dropLast else splitPK
    (true, rootdir, nodes.mapIdx (inflateStep nodes), revision)

/-- Whether the regular expression `//([^/]+)//` matches at the start of
`s`: a `"//"`, a non-empty maximal slash-free run, then `"//"`. -/
def labelMatchAt : Str → Bool
  | '/' :: '/' :: rest =>
    let run := rest.takeWhile (fun c => c ≠ '/')
    (!run.isEmpty) && ['/', '/'].isPrefixOf (rest.drop run.length)
  | _ => false

/-- Whether `//([^/]+)//` matches anywhere in `s` (the regex engine scans
all start positions). -/
def hasLabelPattern : Str → Bool
  | [] => false
  | c :: rest => labelMatchAt (c :: rest) || hasLabelPattern rest

/-- Models Go `strings.TrimSpace`. -/
def trimSpaceStr (s : Str) : Str :=
  ((s.dropWhile Char.isWhitespace).reverse.dropWhile Char.isWhitespace).reverse

/-- Embeds `isLabelling` from the indexer: the key must start with `"//"`
and, with trailing `'0'`/`'='` padding removed, contain `//<non-slash>//`;
the label is the trimmed string without outer slashes, `'+'` decoded as
space. -/
def isLabelling (key : Str) : Bool × Str :=
  if ['/', '/'].isPrefixOf key then
    let trimmed := trimRightCut ['0', '='] key
    if hasLabelPattern trimmed then
      (true, (trimCut ['/'] trimmed).map (fun c => if c = '+' then ' ' else c))
    else (false, [])
  else (false, [])

/-! ## The indexer: UTC date stamps

The indexer formats `txn.Time` with Go's `time.Unix(...).UTC().Format`;
the model uses the standard civil-from-days conversion (Gregorian,
proleptic), which is what Go's time package computes for UTC. -/

/-- `(year, month, day)` of the civil date `z` days after 1970-01-01. -/
def civilFromDays (z0 : Int) : Int × Int × Int :=
  let z := z0 + 719468
  let era := Int.fdiv z 146097
  let doe := z - era * 146097
  let yoe := Int.tdiv (doe - Int.tdiv doe 1460 + Int.tdiv doe 36524
      - Int.tdiv doe 146096) 365
  let y := yoe + era * 400
  let doy := doe - (365 * yoe + Int.tdiv yoe 4 - Int.tdiv yoe 100)
  let mp := Int.tdiv (5 * doy + 2) 153
  let d := doy - Int.tdiv (153 * mp + 2) 5 + 1
  let m := mp + (if mp < 10 then 3 else -9)
  (y + (if m ≤ 2 then 1 else 0), m, d)

def formatInt (n : Int) : Str :=
  if n < 0 then '-' :: Nat.toDigits 10 (-n).toNat else Nat.toDigits 10 n.toNat

def natPad2 (n : Nat) : Str :=
  if n < 10 then '0' :: Nat.toDigits 10 n else Nat.toDigits 10 n

def dateParts (time : Int) : Int × Int × Int := civilFromDays (Int.fdiv time 86400)

/-- `Format("2006")`. -/
def fmtYEAR (time : Int) : Str := formatInt (dateParts time).1

/-- `Format("2006+01")`. -/
def fmtMONTH (time : Int) : Str :=
  fmtYEAR time ++ ['+'] ++ natPad2 (dateParts time).2.1.toNat

/-- `Format("2006+01+02")`. -/
def fmtDAY (time : Int) : Str :=
  fmtMONTH time ++ ['+'] ++ natPad2 (dateParts time).2.2.toNat

/-! ## The indexer: state and per-transaction step -/

/-- `KeyState` from the indexer. -/
structure KeyState where
  label : Str
  memo : Str
  revision : Nat
  time : Int
deriving DecidableEq

/-- A transaction as the indexer consumes it.  `txFrom`/`txTo` are the
Base64 encodings of the 32-byte public keys (`none` models a nil `From`,
i.e. coinbase); `txid` is the result of `txn.ID()` (`none` models an ID
computation error). -/
structure Transaction where
  txFrom : Option Str
  txTo : Str
  amount : Int
  time : Int
  memo : Str
  txid : Option Str
deriving DecidableEq

/-- A block: its header height and its transactions in array order. -/
structure Block where
  height : Int
  txns : List Transaction
deriving DecidableEq

/-- The indexer's mutable state (`Indexer` minus the external handles).
Go maps become association lists (insertion order; Go map iteration order
is unspecified and only observable through directory-label collisions,
which the spec leaves open). -/
structure IState where
  latestBlockID : Str
  latestHeight : Int
  keyState : List (Str × KeyState)
  directories : List (Str × Str)
  dirBalances : List (Str × List (Str × Int))
  dirGraphs : List (Str × Graph)
deriving DecidableEq

/-- `NewIndexer`: all maps empty, height 0. -/
def NewIndexer (genesisBlockID : Str) : IState :=
  { latestBlockID := genesisBlockID
    latestHeight := 0
    keyState := []
    directories := []
    dirBalances := []
    dirGraphs := [] }

def lookupA {β : Type} : List (Str × β) → Str → Option β
  | [], _ => none
  | (k, v) :: rest, s => if k = s then some v else lookupA rest s

def updA {β : Type} : List (Str × β) → Str → β → List (Str × β)
  | [], s, v => [(s, v)]
  | (k, v0) :: rest, s, v => if k = s then (k, v) :: rest else (k, v0) :: updA rest s v

/-- Go map read with zero default: `balances[k]`. -/
def balLookup (b : List (Str × Int)) (k : Str) : Int := (lookupA b k).getD 0

/-- `balances[k] += d`. -/
def balAdd (b : List (Str × Int)) (k : Str) (d : Int) : List (Str × Int) :=
  updA b k (balLookup b k + d)

/-- `pubKeyToString` from utils.go: nil keys canonicalize to
`pad44("0")` (= `rootKey`, see `pad44_zero`). -/
def pubKeyToString (k : Option Str) : Str :=
  match k with
  | none => rootKey
  | some pk => pk

/-- `idx.dirBalances[dir][k]` (nil maps read as zero). -/
def IState.balOf (s : IState) (dir k : Str) : Int :=
  balLookup ((lookupA s.dirBalances dir).getD []) k

/-- `idx.dirGraphs[dir]` for read-only use (nil graph reads like empty). -/
def IState.graphOf (s : IState) (dir : Str) : Graph :=
  (lookupA s.dirGraphs dir).getD NewGraph

/-- The Go label-collision loop `for key, lbl := range idx.directories`:
the last iterated match wins; the model iterates in insertion order (the
Go order is unspecified, a documented open point of the spec). -/
def lastLabelMatch : List (Str × Str) → Str → Option Str
  | [], _ => none
  | (k, lbl) :: rest, target =>
    match lastLabelMatch rest target with
    | some k2 => some k2
    | none => if lbl = target then some k else none

/-- The credit case's `Link` block: if the sender's balance is positive,
link sender → recipient and debit the sender; otherwise link
root → recipient.  Go dereferences `idx.dirGraphs[memoKey]`, which
panics (`none`) when the directory has no graph. -/
def creditLink (s : IState) (memoKey txnFrom txnTo : Str) (incrementBy : Int)
    (height time : Int) : Option IState :=
  match lookupA s.dirGraphs memoKey with
  | none => none
  | some g =>
    if 0 < s.balOf memoKey txnFrom then do
      let g2 ← g.link txnFrom txnTo (incrementBy : ℚ) height time
      some { s with
        dirGraphs := updA s.dirGraphs memoKey g2
        dirBalances := updA s.dirBalances memoKey
          (balAdd ((lookupA s.dirBalances memoKey).getD []) txnFrom (-incrementBy)) }
    else do
      let g2 ← g.link ['0'] txnTo (incrementBy : ℚ) height time
      some { s with dirGraphs := updA s.dirGraphs memoKey g2 }

/-- The credit-to-directory-root case: cycle guard, credit the recipient,
then `creditLink`.  When `idx.dirBalances[memoKey]` is missing the Go
code skips the guard and the credit but still links. -/
def creditCase (s : IState) (memoKey txnFrom txnTo : Str) (incrementBy : Int)
    (height time : Int) : Option IState :=
  match lookupA s.dirBalances memoKey with
  | some bal =>
    if (s.graphOf memoKey).IsParentDescendant txnTo txnFrom then some s
    else
      creditLink
        { s with dirBalances := updA s.dirBalances memoKey (balAdd bal txnTo incrementBy) }
        memoKey txnFrom txnTo incrementBy height time
  | none => creditLink s memoKey txnFrom txnTo incrementBy height time

/-- The spatial dimension loop over the reversed node list. -/
def spatialLinks (g : Graph) (txnTo : Str) (reversedNodes : List Str) (w : ℚ)
    (height time : Int) : Option Graph :=
  (List.range reversedNodes.length).foldlM (fun g i => do
    let node := reversedNodes.getD i []
    let additive : Int := 40 + (i : Int)
    let g ← if i = 0 then g.link txnTo node w height (time + additive) else some g
    let g ← match reversedNodes.get? (i + 1) with
      | some next => g.link node next w height (time + additive + ((i : Int) + 1))
      | none => some g
    if i = reversedNodes.length - 1 then
      g.link node ['0'] w height (time + additive + ((i : Int) + 1))
    else some g) g

/-- The periodic dimension chain over `DiminishingOrders`. -/
def periodicLinks (g : Graph) (orders : List Int) (w : ℚ)
    (height time : Int) : Option Graph :=
  (List.range orders.length).foldlM (fun g j =>
    if 1 ≤ j then
      g.link (formatInt (orders.getD (j - 1) 0)) (formatInt (orders.getD j 0))
        w height (time + 10 + (j : Int))
    else some g) g

/-- The path-inflation case: find the directory by root label, check the
sender's balance, then link the path node, debit the sender, record key
state, and emit the four dimension sub-edge sets. -/
def pathCase (s : IState) (txn : Transaction) (txnFrom txnTo : Str)
    (incrementBy : Int) (height : Int) : Option IState :=
  let r := inflateNodes txnTo
  let nodesOk := r.1
  let dirlbl := r.2.1
  let nodes := r.2.2.1
  let revision := r.2.2.2
  let dirKey? := lastLabelMatch s.directories dirlbl
  let balFrom := match dirKey? with
    | some k => s.balOf k txnFrom
    | none => 0
  if balFrom < incrementBy then some s
  else
    match dirKey? with
    | none => some s
    | some key =>
      match lookupA s.dirGraphs key with
      | none => some s
      | some g0 =>
        if nodesOk then
          match lookupA s.dirBalances key with
          | none => none
          | some bal => do
            let toKey ← pad44 txnTo
            let g ← g0.link txnFrom txnTo (incrementBy : ℚ) height txn.time
            let YEAR := fmtYEAR txn.time
            let MONTH := fmtMONTH txn.time
            let DAY := fmtDAY txn.time
            let dimensionWeight : ℚ := ((Int.tdiv incrementBy 4 : Int) : ℚ)
            let g ← g.link txnTo DAY dimensionWeight height (txn.time + 20)
            let g ← g.link DAY MONTH dimensionWeight height (txn.time + 21)
            let g ← g.link MONTH YEAR dimensionWeight height (txn.time + 22)
            let g ← g.link YEAR ['0'] dimensionWeight height (txn.time + 23)
            let revisionNode := '+' :: Nat.toDigits 10 revision
            let g ← g.link txnTo revisionNode dimensionWeight height (txn.time + 30)
            let g ← g.link revisionNode ['0'] dimensionWeight height (txn.time + 31)
            let g ← spatialLinks g txnTo nodes.reverse dimensionWeight height txn.time
            let blockHeight := formatInt height
            let g ← g.link txnTo blockHeight dimensionWeight height (txn.time + 10)
            let g ← periodicLinks g (DiminishingOrders height) dimensionWeight
              height txn.time
            some { s with
              dirGraphs := updA s.dirGraphs key g
              dirBalances := updA s.dirBalances key (balAdd bal txnFrom (-incrementBy))
              keyState := updA s.keyState toKey
                { label := nodes.getLastD []
                  memo := txn.memo
                  revision := revision
                  time := txn.time } }
        else some s

/-- One iteration of the transaction loop of `indexTransactions`.  A Go
`continue` leaves the state untouched (`some s`); a Go panic is `none`. -/
def stepTxn (increment : Bool) (height : Int) (s : IState) (txn : Transaction) :
    Option IState :=
  match txn.txid with
  | none => some s
  | some txid =>
    let txnFrom := pubKeyToString txn.txFrom
    let txnTo := pubKeyToString (some txn.txTo)
    let incrementBy : Int := if increment then txn.amount else 0
    match isLabelling txnTo with
    | (true, label) =>
      match txn.txFrom with
      | none =>
        some { s with
          directories := updA s.directories txid label
          dirGraphs := updA s.dirGraphs txid NewGraph
          dirBalances := updA s.dirBalances txid [] }
      | some _ =>
        let ks := (lookupA s.keyState txnFrom).getD
          { label := [], memo := [], revision := 0, time := 0 }
        some { s with
          keyState := updA s.keyState txnFrom
            { ks with label := label, memo := trimSpaceStr txn.memo } }
    | (false, _) =>
      let trimmedSysMemo := trimCut ['/'] txn.memo
      if (lookupA s.directories trimmedSysMemo).isSome then
        creditCase s trimmedSysMemo txnFrom txnTo incrementBy height txn.time
      else
        pathCase s txn txnFrom txnTo incrementBy height

/-- Embeds `indexTransactions`: record the latest block id and height,
then process the transactions in array order. -/
def indexTransactions (s : IState) (b : Block) (id : Str) (increment : Bool) :
    Option IState :=
  b.txns.foldlM (stepTxn increment b.height)
    { s with latestBlockID := id, latestHeight := b.height }

/-- A sequence of `indexTransactions` calls, as delivered by catch-up or
tip-change events: `(block, blockID, connect)` triples in order. -/
def runBlocks (s : IState) (evs : List (Block × Str × Bool)) : Option IState :=
  evs.foldlM (fun s ev => indexTransactions s ev.1 ev.2.1 ev.2.2) s

/-! ## C9: the inflation loop and Go `strings.Split(next, core)[0]` -/

theorem get?_mapIdx {α β : Type} (l : List α) (f : Nat → α → β) (i : Nat) :
    (l.mapIdx f).get? i = (l.get? i).map (f i) := by
  by_cases h : i < l.length
  · rw [List.get?_eq_get (by simpa using h), List.get?_eq_get h]
    simp [List.get_mapIdx]
  · rw [List.get?_eq_none.2 (by simpa using le_of_not_lt h),
      List.get?_eq_none.2 (le_of_not_lt h)]
    rfl

theorem head_dropWhile_not {α : Type} (p : α → Bool) (s : List α) (c : α)
    (h : (s.dropWhile p).head? = some c) : p c = false := by
  induction s with
  | nil => simp at h
  | cons x xs ih =>
    rw [List.dropWhile_cons] at h
    by_cases hp : p x
    · rw [if_pos hp] at h
      exact ih h
    · rw [if_neg hp] at h
      simp only [List.head?_cons, Option.some.injEq] at h
      rw [← h]
      exact Bool.eq_false_iff.2 hp

/-- Any string decomposes as a leading `'+'` run, its `'+'`-trim, and a
trailing `'+'` run, with the trim not starting with `'+'`. -/
theorem plus_decomp (next : Str) :
    ∃ l r, next = List.replicate l '+' ++ trimCut ['+'] next ++ List.replicate r '+'
      ∧ (∀ c, (trimCut ['+'] next).head? = some c → c ≠ '+') := by
  set p : Char → Bool := fun c => c ∈ ['+'] with hp
  have hsplit : next = next.takeWhile p ++ next.dropWhile p :=
    (List.takeWhile_append_dropWhile p next).symm
  have htake : next.takeWhile p = List.replicate (next.takeWhile p).length '+' := by
    rw [List.eq_replicate]
    exact ⟨rfl, fun b hb => by simpa [hp] using List.mem_takeWhile_imp hb⟩
  set u := next.dropWhile p with hu
  have huhead : ∀ c, u.head? = some c → c ≠ '+' := by
    intro c hc
    have := head_dropWhile_not p next c hc
    simpa [hp] using this
  have hutrim : trimCut ['+'] next = trimRightCut ['+'] u := by
    rw [trimCut]
    rfl
  have hrep : (u.reverse.takeWhile p) = List.replicate (u.reverse.takeWhile p).length '+' := by
    rw [List.eq_replicate]
    exact ⟨rfl, fun b hb => by simpa [hp] using List.mem_takeWhile_imp hb⟩
  have hrev2 : (u.reverse.takeWhile p).reverse
      = List.replicate (u.reverse.takeWhile p).length '+' := by
    conv_lhs => rw [hrep]
    exact List.reverse_replicate _ _
  have hurev : u = trimRightCut ['+'] u ++ List.replicate
      (u.reverse.takeWhile p).length '+' := by
    calc u = u.reverse.reverse := (List.reverse_reverse u).symm
    _ = (u.reverse.takeWhile p ++ u.reverse.dropWhile p).reverse := by
        rw [List.takeWhile_append_dropWhile]
    _ = (u.reverse.dropWhile p).reverse ++ (u.reverse.takeWhile p).reverse :=
        List.reverse_append _ _
    _ = trimRightCut ['+'] u ++ List.replicate (u.reverse.takeWhile p).length '+' := by
        rw [hrev2, trimRightCut, ← hp]
  have hthead : ∀ c, (trimRightCut ['+'] u).head? = some c → c ≠ '+' := by
    intro c hc
    apply huhead c
    rw [hurev]
    cases htr : trimRightCut ['+'] u with
    | nil => rw [htr] at hc; simp at hc
    | cons a t =>
      rw [htr] at hc
      simpa using hc
  refine ⟨(next.takeWhile p).length, (u.reverse.takeWhile p).length, ?_, ?_⟩
  · rw [hutrim, List.append_assoc, ← hurev, ← htake]
    exact hsplit
  · rw [hutrim]
    exact hthead

theorem firstFieldGo_plus_run (core rest : Str) (c0 : Char) (cs : Str)
    (hc : core = c0 :: cs) (hh : c0 ≠ '+') (l : Nat) :
    firstField.firstFieldGo (List.replicate l '+' ++ core ++ rest) core
      = List.replicate l '+' := by
  induction l with
  | zero =>
    simp only [List.replicate, List.nil_append]
    subst hc
    rw [List.cons_append, firstField.firstFieldGo,
      if_pos (by
        rw [← List.cons_append]
        exact List.isPrefixOf_iff_prefix.2 (List.prefix_append _ _))]
  | succ l ih =>
    rw [List.replicate_succ, List.cons_append, List.cons_append,
      firstField.firstFieldGo, if_neg, ih]
    subst hc
    simp only [List.isPrefixOf_iff_prefix]
    intro hpre
    rcases hpre with ⟨t, ht⟩
    rw [List.cons_append] at ht
    exact hh (List.cons_eq_cons.1 ht).1

theorem takeWhile_plus_run (core rest : Str) (c0 : Char) (cs : Str)
    (hc : core = c0 :: cs) (hh : c0 ≠ '+') (l : Nat) :
    (List.replicate l '+' ++ core ++ rest).takeWhile (fun c => c = '+')
      = List.replicate l '+' := by
  induction l with
  | zero =>
    subst hc
    simp only [List.replicate, List.nil_append, List.cons_append,
      List.takeWhile_cons]
    rw [if_neg (by simpa using hh)]
  | succ l ih =>
    rw [List.replicate_succ, List.cons_append, List.cons_append,
      List.takeWhile_cons, if_pos (by simp), ih]

/-- The core C9 fact: what Go's `strings.Split(next, strings.Trim(next,
"+"))[0]` computes for a `next` beginning with `'+'`.  When the trim is
non-empty the first field is the maximal leading `'+'` run; when `next`
is entirely `'+'` characters Go splits around the empty separator and the
first field is the single character `"+"`. -/
theorem firstField_trim_plus (next : Str) (hp : ['+'].isPrefixOf next) :
    firstField next (trimCut ['+'] next)
      = (if trimCut ['+'] next = [] then ['+']
         else next.takeWhile (fun c => c = '+')) := by
  by_cases hcore : trimCut ['+'] next = []
  · rw [if_pos hcore, hcore]
    cases next with
    | nil => simp [List.isPrefixOf] at hp
    | cons c rest =>
      have hc : '+' = c := by
        have := List.isPrefixOf_iff_prefix.1 hp
        rcases this with ⟨t, ht⟩
        rw [List.cons_append, List.nil_append] at ht
        exact (List.cons_eq_cons.1 ht).1
      rw [← hc]
      rfl
  · rw [if_neg hcore]
    obtain ⟨l, r, hdecomp, hhead⟩ := plus_decomp next
    cases hcorec : trimCut ['+'] next with
    | nil => exact absurd hcorec hcore
    | cons c0 cs =>
      have hh : c0 ≠ '+' := hhead c0 (by rw [hcorec]; rfl)
      rw [hcorec] at hdecomp
      conv_lhs => rw [hdecomp]
      conv_rhs => rw [hdecomp]
      rw [firstField]
      rw [firstFieldGo_plus_run (c0 :: cs) (List.replicate r '+') c0 cs rfl hh l,
        takeWhile_plus_run (c0 :: cs) (List.replicate r '+') c0 cs rfl hh l]

/-- Under the validation guard, the nodes returned by `inflateNodes` are
the index-wise inflation of the segment list. -/
theorem inflate_nodes_eq (pubKey : Str)
    (hvalid : (inflateNodes pubKey).1 = true) :
    (inflateNodes pubKey).2.2.1
      = (inflateSegments pubKey).mapIdx (inflateStep (inflateSegments pubKey)) := by
  simp only [inflateNodes] at hvalid ⊢
  simp only [inflateSegments]
  split_ifs at hvalid ⊢ with h1 h2 h3
  all_goals rfl

/-- C9.  For an accepted key, each node whose successor segment starts
with `'+'` becomes `node ++ "/" ++ f(next)`, where `f(next)` is the
maximal leading `'+'` run of `next` when `next` contains a non-`'+'`
character but only the single character `"+"` when `next` is entirely
`'+'`s (Go splits on the empty separator there); a node whose successor
does not start with `'+'` (or which is last) is returned unchanged. -/
theorem c9_inflate_amended (pubKey : Str)
    (hvalid : (inflateNodes pubKey).1 = true)
    (i : Nat) (node : Str)
    (hnode : (inflateSegments pubKey).get? i = some node) :
    (inflateNodes pubKey).2.2.1.get? i = some (
      match (inflateSegments pubKey).get? (i + 1) with
      | some next =>
        if ['+'].isPrefixOf next then
          node ++ ['/'] ++ (if trimCut ['+'] next = [] then ['+']
            else next.takeWhile (fun c => c = '+'))
        else node
      | none => node) := by
  rw [inflate_nodes_eq pubKey hvalid, get?_mapIdx, hnode]
  simp only [Option.map_some', Option.some.injEq]
  rw [inflateStep]
  cases hnext : (inflateSegments pubKey).get? (i + 1) with
  | none => rfl
  | some next =>
    simp only
    by_cases hplus : ['+'].isPrefixOf next
    · rw [if_pos hplus, if_pos hplus, firstField_trim_plus next hplus]
    · rw [if_neg hplus, if_neg hplus]

theorem c9_inflate_amended_witness :
    (inflateNodes (['a', '/', '+', 'b'] ++ List.replicate 39 '0' ++ ['='])).2.2.1.get? 0
      = some ['a', '/', '+'] := by
  have h := c9_inflate_amended
    (['a', '/', '+', 'b'] ++ List.replicate 39 '0' ++ ['='])
    (by decide) 0 ['a'] (by decide)
  exact h.trans (by decide)

/-- C9 counterexample.  On the accepted 44-character key
`"a/++/b" ++ 37*'0' ++ "="` the successor of segment 0 is `"++"`, whose
maximal leading `'+'` run is `"++"`; the claim predicts node 0 =
`"a/++"`, but the code produces `"a/+"`. -/
theorem c9_inflate_cex :
    (inflateNodes (['a', '/', '+', '+', '/', 'b'] ++ List.replicate 37 '0' ++ ['='])).1 = true
    ∧ (inflateSegments (['a', '/', '+', '+', '/', 'b'] ++ List.replicate 37 '0' ++ ['='])).get? 0
        = some ['a']
    ∧ (inflateSegments (['a', '/', '+', '+', '/', 'b'] ++ List.replicate 37 '0' ++ ['='])).get? 1
        = some ['+', '+']
    ∧ ['+'].isPrefixOf ['+', '+'] = true
    ∧ ['+', '+'].takeWhile (fun c => c = '+') = ['+', '+']
    ∧ ¬ (inflateNodes
          (['a', '/', '+', '+', '/', 'b'] ++ List.replicate 37 '0' ++ ['='])).2.2.1.get? 0
        = some (['a'] ++ ['/'] ++ ['+', '+'])
    ∧ (inflateNodes
          (['a', '/', '+', '+', '/', 'b'] ++ List.replicate 37 '0' ++ ['='])).2.2.1.get? 0
        = some ['a', '/', '+'] := by
  decide

/-! ## C4: skipped transactions leave the state untouched -/

/-- C4.  Every skip path of the transaction loop — a failed txid, the
credit case's cycle guard, the path case's insufficient balance, a
missing directory (no label match or a nil graph), or invalid path
nodes — returns the state exactly as it was before the transaction was
examined: no graph, balance table, or keyState entry is mutated. -/
theorem c4_skip_no_mutation (increment : Bool) (height : Int) (s : IState)
    (txn : Transaction)
    (hskip :
      txn.txid = none
      ∨ ((isLabelling (pubKeyToString (some txn.txTo))).1 = false
         ∧ ((lookupA s.directories (trimCut ['/'] txn.memo)).isSome = true
              ∧ (lookupA s.dirBalances (trimCut ['/'] txn.memo)).isSome = true
              ∧ (s.graphOf (trimCut ['/'] txn.memo)).IsParentDescendant
                  (pubKeyToString (some txn.txTo)) (pubKeyToString txn.txFrom) = true
            ∨ (lookupA s.directories (trimCut ['/'] txn.memo)).isSome = false
              ∧ ((match lastLabelMatch s.directories
                    (inflateNodes (pubKeyToString (some txn.txTo))).2.1 with
                  | some k => s.balOf k (pubKeyToString txn.txFrom)
                  | none => 0) < (if increment then txn.amount else 0)
                ∨ lastLabelMatch s.directories
                    (inflateNodes (pubKeyToString (some txn.txTo))).2.1 = none
                ∨ (∃ k, lastLabelMatch s.directories
                      (inflateNodes (pubKeyToString (some txn.txTo))).2.1 = some k
                    ∧ lookupA s.dirGraphs k = none)
                ∨ (inflateNodes (pubKeyToString (some txn.txTo))).1 = false)))) :
    stepTxn increment height s txn = some s := by
  cases htx : txn.txid with
  | none => rw [stepTxn, htx]
  | some txid =>
    rcases hskip with hA | ⟨hlab, hrest⟩
    · exact absurd htx (by rw [hA]; exact fun h => Option.noConfusion h)
    · rw [stepTxn, htx]
      simp only
      rcases hpair : isLabelling (pubKeyToString (some txn.txTo)) with ⟨b, lbl⟩
      rw [hpair] at hlab
      simp only at hlab
      subst hlab
      simp only
      rcases hrest with ⟨hdir, hbal, hcyc⟩ | ⟨hdir, hpath⟩
      · rw [if_pos hdir, creditCase]
        obtain ⟨bal, hbal2⟩ := Option.isSome_iff_exists.1 hbal
        rw [hbal2]
        simp only
        rw [if_pos hcyc]
      · rw [if_neg (by rw [hdir]; exact fun h => Bool.noConfusion h), pathCase]
        simp only
        rcases hpath with hins | hnone | ⟨k, hk, hg⟩ | hnodes
        · rw [if_pos hins]
        · rw [hnone]
          split_ifs
          all_goals rfl
        · rw [hk]
          simp only
          rw [hg]
          split_ifs
          all_goals rfl
        · cases hkey : lastLabelMatch s.directories
            (inflateNodes (pubKeyToString (some txn.txTo))).2.1 with
          | none =>
            split_ifs
            all_goals rfl
          | some k =>
            simp only
            cases hgr : lookupA s.dirGraphs k with
            | none =>
              split_ifs
              all_goals rfl
            | some g0 =>
              simp only
              split_ifs
              all_goals first
              | rfl
              | simp_all

theorem c4_skip_no_mutation_witness :
    stepTxn true 5 (NewIndexer []) ⟨none, ['k'], 3, 7, [], some ['T']⟩
      = some (NewIndexer []) :=
  c4_skip_no_mutation true 5 (NewIndexer []) ⟨none, ['k'], 3, 7, [], some ['T']⟩
    (Or.inr ⟨by decide, Or.inr ⟨by decide, Or.inl (by decide)⟩⟩)

/-! ## C1: balance non-negativity -/

/-- All balances recorded in one directory's balance map are
non-negative. -/
def balsNonneg (b : List (Str × Int)) : Bool :=
  b.all (fun kv => decide (0 ≤ kv.2))

/-- All balances of all directories are non-negative. -/
def nonnegBals (m : List (Str × List (Str × Int))) : Bool :=
  m.all (fun e => balsNonneg e.2)

theorem lookupA_mem {β : Type} (m : List (Str × β)) (s : Str) (v : β)
    (h : lookupA m s = some v) : (s, v) ∈ m := by
  induction m with
  | nil => exact absurd h (by rw [lookupA]; exact fun h => Option.noConfusion h)
  | cons e rest ih =>
    rcases e with ⟨k, v0⟩
    rw [lookupA] at h
    by_cases hk : k = s
    · rw [if_pos hk] at h
      rw [Option.some.injEq] at h
      subst hk
      subst h
      exact List.mem_cons_self _ _
    · rw [if_neg hk] at h
      exact List.mem_cons_of_mem _ (ih h)

theorem lookupA_updA_self {β : Type} (m : List (Str × β)) (s : Str) (v : β) :
    lookupA (updA m s v) s = some v := by
  induction m with
  | nil => simp [updA, lookupA]
  | cons e rest ih =>
    rcases e with ⟨k, v0⟩
    rw [updA]
    by_cases hk : k = s
    · rw [if_pos hk, lookupA, if_pos hk]
    · rw [if_neg hk, lookupA, if_neg hk]
      exact ih

theorem updA_updA {β : Type} (m : List (Str × β)) (s : Str) (v w : β) :
    updA (updA m s v) s w = updA m s w := by
  induction m with
  | nil => simp [updA]
  | cons e rest ih =>
    rcases e with ⟨k, v0⟩
    rw [updA]
    by_cases hk : k = s
    · rw [if_pos hk, updA, if_pos hk, updA, if_pos hk]
    · rw [if_neg hk, updA, if_neg hk, updA, if_neg hk, ih]

theorem all_updA {β : Type} (p : Str × β → Bool) (m : List (Str × β))
    (s : Str) (v : β) (hm : m.all p = true) (hv : p (s, v) = true) :
    (updA m s v).all p = true := by
  induction m with
  | nil => simpa [updA] using hv
  | cons e rest ih =>
    rcases e with ⟨k, v0⟩
    rw [List.all_cons, Bool.and_eq_true] at hm
    rw [updA]
    by_cases hk : k = s
    · rw [if_pos hk, List.all_cons, Bool.and_eq_true]
      exact ⟨by rw [hk]; exact hv, hm.2⟩
    · rw [if_neg hk, List.all_cons, Bool.and_eq_true]
      exact ⟨hm.1, ih hm.2⟩

theorem balLookup_nonneg (b : List (Str × Int)) (k : Str)
    (hb : balsNonneg b = true) : 0 ≤ balLookup b k := by
  rw [balLookup]
  cases hl : lookupA b k with
  | none => exact le_refl 0
  | some v =>
    have hmem := lookupA_mem b k v hl
    have := (List.all_eq_true.1 hb) _ hmem
    simpa using this

theorem balsNonneg_balAdd (b : List (Str × Int)) (k : Str) (d : Int)
    (hb : balsNonneg b = true) (hd : 0 ≤ balLookup b k + d) :
    balsNonneg (balAdd b k d) = true := by
  rw [balAdd]
  exact all_updA _ b k _ hb (by simpa using hd)

theorem nonnegBals_lookup (m : List (Str × List (Str × Int))) (k : Str)
    (b : List (Str × Int)) (hm : nonnegBals m = true)
    (hb : lookupA m k = some b) : balsNonneg b = true := by
  have hmem := lookupA_mem m k b hb
  exact (List.all_eq_true.1 hm) _ hmem

theorem nonnegBals_updA (m : List (Str × List (Str × Int))) (k : Str)
    (b : List (Str × Int)) (hm : nonnegBals m = true)
    (hb : balsNonneg b = true) : nonnegBals (updA m k b) = true :=
  all_updA _ m k b hm hb

/-- What `creditLink` does to the balance tables: either nothing (the
root-link branch), or it debits the sender in the directory's map. -/
theorem creditLink_balances (s : IState) (memoKey txnFrom txnTo : Str)
    (inc height time : Int) (s2 : IState)
    (h : creditLink s memoKey txnFrom txnTo inc height time = some s2) :
    s2.dirBalances = s.dirBalances
    ∨ (0 < s.balOf memoKey txnFrom
       ∧ s2.dirBalances = updA s.dirBalances memoKey
           (balAdd ((lookupA s.dirBalances memoKey).getD []) txnFrom (-inc))) := by
  rw [creditLink] at h
  rcases hg : lookupA s.dirGraphs memoKey with _ | g
  · rw [hg] at h
    exact absurd h (fun h => Option.noConfusion h)
  · rw [hg] at h
    simp only at h
    split_ifs at h with hpos
    · simp only [Option.bind_eq_bind, Option.bind_eq_some] at h
      obtain ⟨g2, _, h⟩ := h
      rw [Option.some.injEq] at h
      right
      exact ⟨hpos, by rw [← h]⟩
    · simp only [Option.bind_eq_bind, Option.bind_eq_some] at h
      obtain ⟨g2, _, h⟩ := h
      rw [Option.some.injEq] at h
      left
      rw [← h]

/-- What the credit case does to the balance tables: nothing (cycle skip
or missing balance map), a pure credit of the recipient, or a credit of
the recipient followed by a debit of the (then positive) sender. -/
theorem creditCase_balances (s : IState) (memoKey txnFrom txnTo : Str)
    (inc height time : Int) (s2 : IState)
    (h : creditCase s memoKey txnFrom txnTo inc height time = some s2) :
    s2.dirBalances = s.dirBalances
    ∨ (∃ bal, lookupA s.dirBalances memoKey = some bal
        ∧ (s2.dirBalances = updA s.dirBalances memoKey (balAdd bal txnTo inc)
           ∨ (0 < balLookup (balAdd bal txnTo inc) txnFrom
              ∧ s2.dirBalances = updA s.dirBalances memoKey
                  (balAdd (balAdd bal txnTo inc) txnFrom (-inc))))) := by
  rw [creditCase] at h
  rcases hb : lookupA s.dirBalances memoKey with _ | bal
  · rw [hb] at h
    simp only at h
    rcases creditLink_balances _ _ _ _ _ _ _ _ h with h2 | ⟨hpos, _⟩
    · exact Or.inl h2
    · rw [IState.balOf, hb] at hpos
      simp [balLookup, lookupA] at hpos
  · rw [hb] at h
    simp only at h
    split_ifs at h with hcyc
    · rw [Option.some.injEq] at h
      exact Or.inl (by rw [← h])
    · rcases creditLink_balances _ _ _ _ _ _ _ _ h with h2 | ⟨hpos, h2⟩
      · refine Or.inr ⟨bal, rfl, Or.inl ?_⟩
        simpa using h2
      · refine Or.inr ⟨bal, rfl, Or.inr ⟨?_, ?_⟩⟩
        · rw [IState.balOf] at hpos
          simpa [lookupA_updA_self] using hpos
        · simpa [lookupA_updA_self, updA_updA] using h2

/-- What the path case does to the balance tables: nothing on any skip
path, otherwise a debit of the sender, guarded by the prior balance
check `balFrom < incrementBy`. -/
theorem pathCase_balances (s : IState) (txn : Transaction) (txnFrom txnTo : Str)
    (inc height : Int) (s2 : IState)
    (h : pathCase s txn txnFrom txnTo inc height = some s2) :
    s2.dirBalances = s.dirBalances
    ∨ (∃ key bal, lookupA s.dirBalances key = some bal
        ∧ inc ≤ balLookup bal txnFrom
        ∧ s2.dirBalances = updA s.dirBalances key (balAdd bal txnFrom (-inc))) := by
  rw [pathCase] at h
  simp only at h
  rcases hkey : lastLabelMatch s.directories (inflateNodes txnTo).2.1 with _ | key
  · rw [hkey] at h
    simp only at h
    split_ifs at h
    all_goals rw [Option.some.injEq] at h
    all_goals exact Or.inl (by rw [← h])
  · rw [hkey] at h
    simp only at h
    split_ifs at h with hlt hok
    · rw [Option.some.injEq] at h
      exact Or.inl (by rw [← h])
    · rcases hg : lookupA s.dirGraphs key with _ | g0
      · rw [hg] at h
        simp only at h
        rw [Option.some.injEq] at h
        exact Or.inl (by rw [← h])
      · rw [hg] at h
        simp only at h
        rcases hb : lookupA s.dirBalances key with _ | bal
        · rw [hb] at h
          exact absurd h (fun h => Option.noConfusion h)
        · rw [hb] at h
          simp only [Option.bind_eq_bind, Option.bind_eq_some] at h
          obtain ⟨tk, _, g1, _, g2, _, g3, _, g4, _, g5, _, g6, _, g7, _, g8, _,
            g9, _, g10, _, h⟩ := h
          rw [Option.some.injEq] at h
          refine Or.inr ⟨key, bal, hb, ?_, ?_⟩
          · rw [IState.balOf, hb] at hlt
            simp only [Option.getD_some] at hlt
            omega
          · rw [← h]
    · rcases hg : lookupA s.dirGraphs key with _ | g0
      all_goals rw [hg] at h
      all_goals simp only at h
      all_goals rw [Option.some.injEq] at h
      all_goals exact Or.inl (by rw [← h])

/-- A 44-character non-labelling key (valid Base64 of 32 bytes). -/
def keyB : Str := 'b' :: (List.replicate 42 '0' ++ ['='])

/-- Another 44-character non-labelling key. -/
def keyC : Str := 'c' :: (List.replicate 42 '0' ++ ['='])

/-- Another 44-character non-labelling key. -/
def keyD : Str := 'd' :: (List.replicate 42 '0' ++ ['='])

/-- A 44-character labelling key: `"//L//" ++ 38*'0' ++ "="`, declaring
the directory label `"L"`. -/
def keyLbl : Str := ['/', '/', 'L', '/', '/'] ++ (List.replicate 38 '0' ++ ['='])

/-- A 44-character path key under root label `"L"`. -/
def keyA : Str := ['L', '/', 'a', '/'] ++ (List.replicate 39 '0' ++ ['='])

/-- Coinbase labelling transaction creating directory `"X"` (its txid)
with label `"L"`. -/
def txLabelL : Transaction := ⟨none, keyLbl, 50, 0, [], some ['X']⟩

/-- Credits 100 to `keyB` in directory `"X"` (memo `"/X/"`). -/
def txCredit100 : Transaction :=
  ⟨some keyC, keyB, 100, 0, ['/', 'X', '/'], some ['T', '1']⟩

/-- `keyB` sends 300 to `keyD` in directory `"X"`, with only 100 of
balance. -/
def txSpend300 : Transaction :=
  ⟨some keyB, keyD, 300, 0, ['/', 'X', '/'], some ['T', '2']⟩

/-- C1 counterexample.  Connecting one block whose transactions label a
directory, credit 100 to `keyB`, then let `keyB` send 300 leaves
`balances["X"][keyB] = -200 < 0`: the credit case only checks
`balances[txnFrom] > 0`, not `balances[txnFrom] ≥ incrementBy`, before
debiting the full amount. -/
theorem c1_balance_cex :
    ((runBlocks (NewIndexer [])
        [(⟨7, [txLabelL, txCredit100, txSpend300]⟩, ['B', '1'], true)]).map
      (fun s => s.balOf ['X'] keyB)) = some (-200)
    ∧ ((runBlocks (NewIndexer [])
        [(⟨7, [txLabelL, txCredit100, txSpend300]⟩, ['B', '1'], true)]).map
      (fun s => s.balOf ['X'] keyB)).getD 0 < 0 := by
  constructor
  · decide
  · decide

/-- C1.  Amended balance non-negativity: one indexing step preserves
non-negativity of all directory balances provided the transaction's
amount is non-negative and — the condition the code fails to enforce —
whenever the credit case fires, the sender's post-credit balance either
covers the debit (`incrementBy ≤ balance`) or is not positive (so the
code links from the root and debits nothing).  The path case needs no
extra condition: its `balFrom < incrementBy` skip already guards the
debit.  The unamended claim is refuted by `c1_balance_cex`. -/
theorem c1_balance_amended (increment : Bool) (height : Int) (s : IState)
    (txn : Transaction) (s2 : IState)
    (hnn : nonnegBals s.dirBalances = true)
    (hamt : 0 ≤ txn.amount)
    (hcredit : ∀ bal, lookupA s.dirBalances (trimCut ['/'] txn.memo) = some bal →
      (if increment then txn.amount else 0)
          ≤ balLookup (balAdd bal (pubKeyToString (some txn.txTo))
              (if increment then txn.amount else 0)) (pubKeyToString txn.txFrom)
        ∨ balLookup (balAdd bal (pubKeyToString (some txn.txTo))
            (if increment then txn.amount else 0)) (pubKeyToString txn.txFrom) ≤ 0)
    (hstep : stepTxn increment height s txn = some s2) :
    nonnegBals s2.dirBalances = true := by
  have hinc : 0 ≤ (if increment then txn.amount else 0) := by
    split_ifs
    · exact hamt
    · exact le_refl 0
  rw [stepTxn] at hstep
  set inc : Int := if increment = true then txn.amount else 0 with hincdef
  cases htx : txn.txid with
  | none =>
    rw [htx] at hstep
    rw [Option.some.injEq] at hstep
    rw [← hstep]
    exact hnn
  | some txid =>
    rw [htx] at hstep
    simp only at hstep
    rcases hpair : isLabelling (pubKeyToString (some txn.txTo)) with ⟨b, lbl⟩
    rw [hpair] at hstep
    cases b with
    | true =>
      simp only at hstep
      cases hfrom : txn.txFrom with
      | none =>
        rw [hfrom] at hstep
        rw [Option.some.injEq] at hstep
        rw [← hstep]
        exact nonnegBals_updA _ _ _ hnn (by rw [balsNonneg]; rfl)
      | some pk =>
        rw [hfrom] at hstep
        rw [Option.some.injEq] at hstep
        rw [← hstep]
        exact hnn
    | false =>
      simp only at hstep
      split_ifs at hstep with hdir
      · rcases creditCase_balances _ _ _ _ _ _ _ _ hstep with h2 | ⟨bal, hbal, hcase⟩
        · rw [h2]; exact hnn
        · have hbnn : balsNonneg bal = true := nonnegBals_lookup _ _ _ hnn hbal
          have hXnn : balsNonneg (balAdd bal (pubKeyToString (some txn.txTo))
              inc) = true :=
            balsNonneg_balAdd _ _ _ hbnn
              (add_nonneg (balLookup_nonneg _ _ hbnn) hinc)
          rcases hcase with h2 | ⟨hpos, h2⟩
          · rw [h2]
            exact nonnegBals_updA _ _ _ hnn hXnn
          · rw [h2]
            refine nonnegBals_updA _ _ _ hnn ?_
            refine balsNonneg_balAdd _ _ _ hXnn ?_
            rcases hcredit bal hbal with hge | hle
            · omega
            · omega
      · rcases pathCase_balances _ _ _ _ _ _ _ hstep with h2 | ⟨key, bal, hbal, hge, h2⟩
        · rw [h2]; exact hnn
        · have hbnn : balsNonneg bal = true := nonnegBals_lookup _ _ _ hnn hbal
          rw [h2]
          refine nonnegBals_updA _ _ _ hnn ?_
          refine balsNonneg_balAdd _ _ _ hbnn ?_
          omega

theorem c1_balance_amended_witness :
    nonnegBals ((stepTxn true 5
      { latestBlockID := [], latestHeight := 0, keyState := [],
        directories := [(['X'], ['L'])],
        dirBalances := [(['X'], [(keyB, 100)])],
        dirGraphs := [(['X'], NewGraph)] }
      ⟨some keyB, keyD, 50, 9, ['/', 'X', '/'], some ['T']⟩).getD
        (NewIndexer [])).dirBalances = true :=
  c1_balance_amended true 5
    { latestBlockID := [], latestHeight := 0, keyState := [],
      directories := [(['X'], ['L'])],
      dirBalances := [(['X'], [(keyB, 100)])],
      dirGraphs := [(['X'], NewGraph)] }
    ⟨some keyB, keyD, 50, 9, ['/', 'X', '/'], some ['T']⟩ _
    (by decide) (by decide)
    (fun bal hbal => by
      have hb2 : [(keyB, (100 : Int))] = bal := Option.some.inj hbal
      rw [← hb2]
      left
      decide)
    (getD_of_isSome _ _ (by decide))

/-! ## C3: index 0 and the root sink -/

/-- A path transaction from `keyB` into path key `keyA` (root label
`"L"`), amount 100. -/
def txPathA : Transaction := ⟨some keyB, keyA, 100, 0, [], some ['T', '3']⟩

/-- C3 counterexample.  Label directory `"X"` (graph constructed by
`NewGraph`, unseeded), connect a path transaction (skipped: balance 0),
then disconnect the same block: the disconnect runs with
`incrementBy = 0`, passes the balance check, and its first `Link` seats
the *sender* `keyB` at index 0.  The root sink ends up at index 5 of a
10-node graph. -/
theorem c3_root_cex :
    ((runBlocks (NewIndexer [])
        [(⟨1, [txLabelL]⟩, ['I', '1'], true),
         (⟨2, [txPathA]⟩, ['I', '2'], true),
         (⟨2, [txPathA]⟩, ['I', '2'], false)]).map
      (fun s => ((s.graphOf ['X']).keys.length,
        (s.graphOf ['X']).keys.head?,
        (s.graphOf ['X']).indexOf rootKey)))
      = some (10, some keyB, some 5)
    ∧ keyB ≠ rootKey := by
  constructor
  · decide
  · decide

/-- C3.  Amended: index 0 belongs to the first identifier ever inserted,
which is the padded *source* of the first `Link` call on the directory's
graph — `NewGraph` is not seeded with `PadTo44("0")`, so the root sink
holds index 0 only when that first source pads to it. -/
theorem c3_root_amended (src tgt : Str) (w : ℚ) (h t : Int) (g2 : Graph)
    (hlink : NewGraph.link src tgt w h t = some g2) :
    ∃ s44, pad44 src = some s44
      ∧ g2.keys.head? = some s44
      ∧ g2.indexOf s44 = some 0 := by
  rw [Graph.link] at hlink
  rcases hs : pad44 src with _ | s44
  · rw [hs] at hlink
    exact absurd hlink (fun h => Option.noConfusion h)
  · rw [hs] at hlink
    simp only [Option.bind_eq_bind, Option.some_bind] at hlink
    rcases ht : pad44 tgt with _ | t44
    · rw [ht] at hlink
      exact absurd hlink (fun h => Option.noConfusion h)
    · rw [ht] at hlink
      simp only [Option.some_bind, Option.some.injEq] at hlink
      refine ⟨s44, rfl, ?_⟩
      rw [← hlink]
      by_cases hst : s44 = t44
      · subst hst
        simp [Graph.getOrInsert, Graph.indexOf, idxOf, NewGraph]
      · simp [Graph.getOrInsert, Graph.indexOf, idxOf, NewGraph, hst]

theorem c3_root_amended_witness :
    pad44 ['a'] = some (['a', '/'] ++ (List.replicate 41 '0' ++ ['=']))
    ∧ ((NewGraph.link ['a'] ['b'] 2 3 4).getD NewGraph).keys.head?
        = some (['a', '/'] ++ (List.replicate 41 '0' ++ ['=']))
    ∧ ((NewGraph.link ['a'] ['b'] 2 3 4).getD NewGraph).indexOf
        (['a', '/'] ++ (List.replicate 41 '0' ++ ['='])) = some 0 := by
  have hK : pad44 ['a'] = some (['a', '/'] ++ (List.replicate 41 '0' ++ ['='])) := by
    decide
  obtain ⟨s44, hs, hh, hi⟩ :=
    c3_root_amended ['a'] ['b'] 2 3 4 _ (getD_of_isSome _ _ (by decide))
  have he : s44 = ['a', '/'] ++ (List.replicate 41 '0' ++ ['=']) :=
    Option.some.inj (hs.symm.trans hK)
  subst he
  exact ⟨hK, hh, hi⟩

/-! ## C2: cycles among non-root nodes -/

/-- One step along a directory graph edge between two non-root nodes. -/
def stepRel (g : Graph) (a b : Nat) : Prop :=
  a ≠ 0 ∧ b ≠ 0 ∧ b ∈ g.succs a

/-- The spec's cycle-freedom property: no directed cycle among non-root
nodes (dense indices different from 0). -/
def Graph.CycleFree (g : Graph) : Prop :=
  ∀ i, ¬ Relation.TransGen (stepRel g) i i

theorem mem_succs (g : Graph) (a b : Nat) :
    b ∈ g.succs a ↔ (a, b) ∈ g.edges.map (fun e => e.1) := by
  rw [Graph.succs]
  simp only [List.mem_map, List.mem_filter]
  constructor
  · rintro ⟨e, ⟨he, ha⟩, hb⟩
    exact ⟨e, he, by
      have ha2 : e.1.1 = a := by simpa using ha
      rw [← ha2, ← hb]⟩
  · rintro ⟨e, he, hab⟩
    exact ⟨e, ⟨he, by simp [hab]⟩, by rw [hab]⟩

theorem idxOf_get (l : List Str) (s : Str) (i : Nat) (h : idxOf l s = some i) :
    l.get? i = some s := by
  induction l generalizing i with
  | nil => exact absurd h (by rw [idxOf]; exact fun h => Option.noConfusion h)
  | cons k rest ih =>
    rw [idxOf] at h
    by_cases hk : k = s
    · rw [if_pos hk] at h
      rw [Option.some.injEq] at h
      subst hk
      rw [← h]
      rfl
    · rw [if_neg hk] at h
      cases hr : idxOf rest s with
      | none => rw [hr] at h; exact absurd h (fun h => Option.noConfusion h)
      | some j =>
        rw [hr] at h
        rw [Option.map_some', Option.some.injEq] at h
        rw [← h]
        simpa using ih j hr

theorem idxOf_isSome_of_mem (l : List Str) (s : Str) (h : s ∈ l) :
    (idxOf l s).isSome = true := by
  induction l with
  | nil => simp at h
  | cons k rest ih =>
    rw [idxOf]
    by_cases hk : k = s
    · rw [if_pos hk]; rfl
    · rw [if_neg hk]
      rcases List.mem_cons.1 h with h2 | h2
    
      · exact absurd h2.symm hk
      · have := ih h2
        cases hr : idxOf rest s with
        | none => rw [hr] at this; exact absurd this (by decide)
        | some j => rfl

theorem updEdges_fst_subset (es : List ((Nat × Nat) × GEdge)) (key : Nat × Nat)
    (w : ℚ) (h t : Int) :
    (updEdges es key w h t).map (fun e => e.1)
      ⊆ es.map (fun e => e.1) ++ [key] := by
  induction es with
  | nil => simp [updEdges]
  | cons he rest ih =>
    obtain ⟨k, e⟩ := he
    rw [updEdges]
    by_cases hk : k = key
    · rw [if_pos hk]
      intro x hx
      simpa using (by simpa using hx : x = k ∨ x ∈ rest.map (fun e => e.1)).imp_right
        (fun h2 => Or.inl h2)
    · rw [if_neg hk]
      intro x hx
      rcases (by simpa using hx : x = k ∨ x ∈ (updEdges rest key w h t).map (fun e => e.1))
        with h2 | h2
      · simp [h2]
      · have := ih h2
        rcases (by simpa using this) with h3 | h3
        · simp [h3]
        · simp [h3]

theorem nodup_bounded_length (v : List Nat) (N : Nat) (hv : v.Nodup)
    (hb : ∀ x ∈ v, x < N) : v.length ≤ N := by
  have hsub : v.toFinset ⊆ Finset.range N := by
    intro x hx
    exact Finset.mem_range.2 (hb x (List.mem_toFinset.1 hx))
  calc v.length = v.toFinset.card := (List.toFinset_card_of_nodup hv).symm
  _ ≤ (Finset.range N).card := Finset.card_le_card hsub
  _ = N := Finset.card_range N

/-- The invariant a failed DFS establishes between its input visited set
`v0` and its output visited set `V`: the output extends the input inside
the node range, never contains the target, and every node it marked (not
already in `v0`) has all of its non-root successors marked too. -/
def DfsInv (g : Graph) (target : Nat) (v0 V : List Nat) : Prop :=
  v0 ⊆ V ∧ V.Nodup ∧ (∀ x ∈ V, x < g.keys.length) ∧ target ∉ V
    ∧ ∀ u ∈ V, u ∉ v0 → ∀ w ∈ g.succs u, w ≠ 0 → w ∈ V

theorem dfsInv_trans (g : Graph) (target : Nat) (v0 v1 V : List Nat)
    (h1 : DfsInv g target v0 v1) (h2 : DfsInv g target v1 V) :
    DfsInv g target v0 V := by
  obtain ⟨hs1, _, _, _, hc1⟩ := h1
  obtain ⟨hs2, hn2, hb2, ht2, hc2⟩ := h2
  refine ⟨fun x hx => hs2 (hs1 hx), hn2, hb2, ht2, ?_⟩
  intro u hu hu0 w hw hw0
  by_cases h1 : u ∈ v1
  · exact hs2 (hc1 u h1 hu0 w hw hw0)
  · exact hc2 u hu h1 w hw hw0

theorem dfsInv_refl (g : Graph) (target : Nat) (v : List Nat)
    (hn : v.Nodup) (hb : ∀ x ∈ v, x < g.keys.length) (ht : target ∉ v) :
    DfsInv g target v v :=
  ⟨fun _ hx => hx, hn, hb, ht, fun u hu hu0 => absurd hu hu0⟩

/-- Completeness of the Go `dfs`: when it returns `false` under the fuel
the code supplies, the output visited set is closed under non-root
successors and omits the target — so no path can have existed.  The two
conjuncts handle `dfs` itself and its successor loop, by induction on
fuel. -/
theorem dfs_complete (g : Graph) (target : Nat)
    (hedges : ∀ e ∈ g.edges, e.1.2 < g.keys.length) : ∀ fuel : Nat,
    (∀ current visited V,
      visited.Nodup → (∀ x ∈ visited, x < g.keys.length) → target ∉ visited →
      current < g.keys.length → current ∉ visited →
      g.keys.length + 1 ≤ fuel + visited.length →
      dfsNode g fuel target current visited = (false, V) →
      DfsInv g target visited V ∧ current ∈ V)
    ∧ (∀ es visited V,
      visited.Nodup → (∀ x ∈ visited, x < g.keys.length) → target ∉ visited →
      (∀ e ∈ es, e < g.keys.length) →
      g.keys.length + 1 ≤ fuel + visited.length →
      dfsSuccs g fuel target es visited = (false, V) →
      DfsInv g target visited V ∧ (∀ e ∈ es, e ≠ 0 → e ∈ V)) := by
  intro fuel
  induction fuel with
  | zero =>
    constructor
    · intro current visited V hn hb ht hc hcv hfuel _
      exact absurd hfuel (by
        have := nodup_bounded_length visited g.keys.length hn hb
        omega)
    · intro es visited V hn hb ht hes hfuel _
      exact absurd hfuel (by
        have := nodup_bounded_length visited g.keys.length hn hb
        omega)
  | succ f ih =>
    have hnode : ∀ current visited V,
        visited.Nodup → (∀ x ∈ visited, x < g.keys.length) → target ∉ visited →
        current < g.keys.length → current ∉ visited →
        g.keys.length + 1 ≤ (f + 1) + visited.length →
        dfsNode g (f + 1) target current visited = (false, V) →
        DfsInv g target visited V ∧ current ∈ V := by
      intro current visited V hn hb ht hc hcv hfuel hrun
      rw [dfsNode] at hrun
      split_ifs at hrun with heq
      · exact Bool.noConfusion (congrArg Prod.fst hrun)
      · have hpre : target ∉ current :: visited := by
          intro hmem
          rcases List.mem_cons.1 hmem with h2 | h2
          · exact heq h2.symm
          · exact ht h2
        obtain ⟨hinv, hcov⟩ := ih.2 (g.succs current) (current :: visited) V
          (List.nodup_cons.2 ⟨hcv, hn⟩)
          (by
            intro x hx
            rcases List.mem_cons.1 hx with h2 | h2
            · rw [h2]; exact hc
            · exact hb x h2)
          hpre
          (by
            intro e he
            rw [mem_succs] at he
            rcases List.mem_map.1 he with ⟨ed, hed, hfst⟩
            have := hedges ed hed
            rw [hfst] at this
            exact this)
          (by simp only [List.length_cons]; omega)
          hrun
        refine ⟨?_, hinv.1 (List.mem_cons_self _ _)⟩
        obtain ⟨hs, hnV, hbV, htV, hcl⟩ := hinv
        refine ⟨fun x hx => hs (List.mem_cons_of_mem _ hx), hnV, hbV, htV, ?_⟩
        intro u hu hu0 w hw hw0
        by_cases hcur : u = current
        · subst hcur
          exact hcov w hw hw0
        · exact hcl u hu (by
            intro hmem
            rcases List.mem_cons.1 hmem with h2 | h2
            · exact hcur h2
            · exact hu0 h2) w hw hw0
    refine ⟨hnode, ?_⟩
    intro es
    induction es with
    | nil =>
      intro visited V hn hb ht _ _ hrun
      rw [dfsSuccs] at hrun
      rw [Prod.mk.injEq] at hrun
      rw [← hrun.2]
      exact ⟨dfsInv_refl g target visited hn hb ht, by simp⟩
    | cons e rest ihes =>
      intro visited V hn hb ht hes hfuel hrun
      rw [dfsSuccs] at hrun
      split_ifs at hrun with h0 hv
      · obtain ⟨hinv, hcov⟩ := ihes visited V hn hb ht
          (fun x hx => hes x (List.mem_cons_of_mem _ hx)) hfuel hrun
        refine ⟨hinv, ?_⟩
        intro x hx hx0
        rcases List.mem_cons.1 hx with h2 | h2
        · exact absurd (h2.trans h0) hx0
        · exact hcov x h2 hx0
      · obtain ⟨hinv, hcov⟩ := ihes visited V hn hb ht
          (fun x hx => hes x (List.mem_cons_of_mem _ hx)) hfuel hrun
        refine ⟨hinv, ?_⟩
        intro x hx hx0
        rcases List.mem_cons.1 hx with h2 | h2
        · exact hinv.1 (h2 ▸ hv)
        · exact hcov x h2 hx0
      · rcases hd : dfsNode g (f + 1) target e visited with ⟨b, v1⟩
        rw [hd] at hrun
        cases b with
        | true =>
          simp only at hrun
          exact Bool.noConfusion (congrArg Prod.fst hrun)
        | false =>
          simp only at hrun
          obtain ⟨hinv1, he1⟩ := hnode e visited v1 hn hb ht
            (hes e (List.mem_cons_self _ _)) hv hfuel hd
          have hs1 := hinv1.1
          have hn1 := hinv1.2.1
          have hb1 := hinv1.2.2.1
          have ht1 := hinv1.2.2.2.1
          have hlen1 : visited.length ≤ v1.length := by
            have h2 : visited.toFinset ⊆ v1.toFinset := by
              intro x hx
              exact List.mem_toFinset.2 (hs1 (List.mem_toFinset.1 hx))
            calc visited.length = visited.toFinset.card :=
                (List.toFinset_card_of_nodup hn).symm
            _ ≤ v1.toFinset.card := Finset.card_le_card h2
            _ = v1.length := List.toFinset_card_of_nodup hn1
          obtain ⟨hinv2, hcov2⟩ := ihes v1 V hn1 hb1 ht1
            (fun x hx => hes x (List.mem_cons_of_mem _ hx))
            (by omega) hrun
          refine ⟨dfsInv_trans g target visited v1 V hinv1 hinv2, ?_⟩
          intro x hx hx0
          rcases List.mem_cons.1 hx with h2 | h2
          · exact hinv2.1 (h2 ▸ he1)
          · exact hcov2 x h2 hx0

/-- A failed top-level `dfs` call means the target is unreachable from
`current` along edges that avoid node 0. -/
theorem dfs_no_path (g : Graph)
    (hedges : ∀ e ∈ g.edges, e.1.2 < g.keys.length)
    (target current : Nat) (hc : current < g.keys.length)
    (hrun : (dfsNode g (g.keys.length + 1) target current []).1 = false) :
    ¬ Relation.ReflTransGen (fun a b => b ≠ 0 ∧ b ∈ g.succs a) current target := by
  rcases hd : dfsNode g (g.keys.length + 1) target current [] with ⟨b, V⟩
  rw [hd] at hrun
  simp only at hrun
  subst hrun
  obtain ⟨hinv, hcur⟩ := (dfs_complete g target hedges (g.keys.length + 1)).1
    current [] V (by simp) (by simp) (by simp) hc (by simp) (by simp) hd
  intro hpath
  have hreach : ∀ v, Relation.ReflTransGen
      (fun a b => b ≠ 0 ∧ b ∈ g.succs a) current v → v ∈ V := by
    intro v hv
    induction hv with
    | refl => exact hcur
    | tail h1 h2 ih => exact hinv.2.2.2.2 _ ih (by simp) _ h2.2 h2.1
  exact hinv.2.2.2.1 (hreach target hpath)

/-- A `false` verdict of `IsParentDescendant` on two present non-root
keys means no 0-avoiding path from parent to child. -/
theorem guard_no_path (g : Graph) (hwf : g.WF) (parent child : Str)
    (hguard : g.IsParentDescendant parent child = false)
    (pI cI : Nat) (hp : g.indexOf parent = some pI)
    (hcI : g.indexOf child = some cI) (hp0 : pI ≠ 0) (hc0 : cI ≠ 0) :
    ¬ Relation.ReflTransGen (fun a b => b ≠ 0 ∧ b ∈ g.succs a) pI cI := by
  rw [Graph.IsParentDescendant, hp, hcI] at hguard
  simp only at hguard
  rw [if_neg (by tauto)] at hguard
  exact dfs_no_path g hwf.edges_tgt cI pI (idxOf_lt_length _ _ _ hp) hguard

/-- Decomposing a transitive chain over an enlarged relation: either the
chain never uses the new pair `(s, t)`, or it passes through it, leaving
old-relation segments to `s` and from `t`. -/
theorem transGen_new_edge {r r2 : Nat → Nat → Prop} (s t : Nat)
    (hsub : ∀ a b, r2 a b → r a b ∨ (a = s ∧ b = t)) (x y : Nat)
    (h : Relation.TransGen r2 x y) :
    Relation.TransGen r x y
    ∨ (Relation.ReflTransGen r x s ∧ Relation.ReflTransGen r t y) := by
  induction h with
  | single h1 =>
    rcases hsub _ _ h1 with h2 | ⟨ha, hb⟩
    · exact Or.inl (Relation.TransGen.single h2)
    · exact Or.inr ⟨ha ▸ Relation.ReflTransGen.refl,
        hb ▸ Relation.ReflTransGen.refl⟩
  | tail h1 h2 ih =>
    rcases hsub _ _ h2 with h2r | ⟨hb, hc⟩
    · rcases ih with ihl | ⟨p1, p2⟩
      · exact Or.inl (Relation.TransGen.tail ihl h2r)
      · exact Or.inr ⟨p1, p2.tail h2r⟩
    · rcases ih with ihl | ⟨p1, _⟩
      · exact Or.inr ⟨hb ▸ ihl.to_reflTransGen, hc ▸ Relation.ReflTransGen.refl⟩
      · exact Or.inr ⟨p1, hc ▸ Relation.ReflTransGen.refl⟩

theorem getOrInsert_keys_ext (g : Graph) (k : Str) :
    ∃ rest, (g.getOrInsert k).1.keys = g.keys ++ rest := by
  rw [Graph.getOrInsert]
  cases g.indexOf k with
  | some i => exact ⟨[], by simp⟩
  | none => exact ⟨[k], rfl⟩

theorem getOrInsert_self_of_isSome (g : Graph) (k : Str)
    (h : (g.indexOf k).isSome) : (g.getOrInsert k).1 = g := by
  rw [Graph.getOrInsert]
  cases hik : g.indexOf k with
  | some i => rfl
  | none => rw [hik] at h; exact absurd h (by decide)

/-- C2.  Amended: cycle-freedom among non-root nodes is preserved by a
`Link` that the credit case's guard has approved — for canonical
44-character keys (as the indexer always passes, via `pubKeyToString`)
with distinct endpoints, `IsParentDescendant(tgt, src) = false` before
`Link(src, tgt, …)` keeps every directory graph free of non-root cycles.
The path-inflation case performs no such check, and
`c2_cycle_cex` shows it does create a non-root cycle. -/
theorem c2_cycle_amended (g : Graph) (src tgt : Str) (w : ℚ) (hW hT : Int)
    (g2 : Graph) (hwf : g.WF)
    (hs44 : pad44 src = some src) (ht44 : pad44 tgt = some tgt)
    (hne : src ≠ tgt)
    (hguard : g.IsParentDescendant tgt src = false)
    (hcf : Graph.CycleFree g)
    (hlink : g.link src tgt w hW hT = some g2) :
    Graph.CycleFree g2 := by
  rw [Graph.link, hs44, ht44] at hlink
  simp only [Option.bind_eq_bind, Option.some_bind] at hlink
  rcases hg1 : g.getOrInsert src with ⟨g1, i1⟩
  rw [hg1] at hlink
  simp only at hlink
  rcases hg2 : g1.getOrInsert tgt with ⟨gI, i2⟩
  rw [hg2] at hlink
  simp only [Option.some.injEq] at hlink
  have hg1fst : (g.getOrInsert src).1 = g1 := by rw [hg1]
  have hg2fst : (g1.getOrInsert tgt).1 = gI := by rw [hg2]
  have hIedges : gI.edges = g.edges := by
    rw [← hg2fst, getOrInsert_edges, ← hg1fst, getOrInsert_edges]
  have hsrcSome : (gI.indexOf src).isSome = true := by
    have h1 : ((g.getOrInsert src).1.indexOf src).isSome = true :=
      getOrInsert_indexOf_isSome g src
    rw [hg1fst] at h1
    rw [← hg2fst, getOrInsert_indexOf_other g1 tgt src h1]
    exact h1
  have htgtSome : (gI.indexOf tgt).isSome = true := by
    rw [← hg2fst]
    exact getOrInsert_indexOf_isSome g1 tgt
  obtain ⟨sIdx, hsIdx⟩ := Option.isSome_iff_exists.1 hsrcSome
  obtain ⟨tIdx, htIdx⟩ := Option.isSome_iff_exists.1 htgtSome
  have hget_s : gI.keys.get? sIdx = some src := idxOf_get _ _ _ hsIdx
  have hget_t : gI.keys.get? tIdx = some tgt := idxOf_get _ _ _ htIdx
  have hst : sIdx ≠ tIdx := by
    intro he
    rw [he] at hget_s
    exact hne (Option.some.inj (hget_s.symm.trans hget_t))
  rw [hsIdx, htIdx] at hlink
  simp only [Option.getD_some] at hlink
  rw [Graph.indexOf] at hsIdx htIdx
  have hkeysExt : ∃ rest, gI.keys = g.keys ++ rest := by
    obtain ⟨r1, hr1⟩ := getOrInsert_keys_ext g src
    obtain ⟨r2, hr2⟩ := getOrInsert_keys_ext g1 tgt
    rw [hg1fst] at hr1
    rw [hg2fst] at hr2
    exact ⟨r1 ++ r2, by rw [hr2, hr1, List.append_assoc]⟩
  have hfresh : ∀ (key : Str) (i : Nat), g.indexOf key = none →
      idxOf gI.keys key = some i → g.keys.length ≤ i := by
    intro key i hnone hsome
    by_contra hlt
    push_neg at hlt
    obtain ⟨rest, hrest⟩ := hkeysExt
    have hgot := idxOf_get gI.keys key i hsome
    rw [hrest, List.get?_append hlt] at hgot
    have hmem : key ∈ g.keys := List.get?_mem hgot
    have := idxOf_isSome_of_mem g.keys key hmem
    rw [Graph.indexOf] at hnone
    rw [hnone] at this
    exact absurd this (by decide)
  have hstep2 : ∀ a b, stepRel g2 a b → stepRel g a b ∨ (a = sIdx ∧ b = tIdx) := by
    intro a b hab
    obtain ⟨ha0, hb0, hmem⟩ := hab
    rw [mem_succs, ← hlink] at hmem
    have hsub := updEdges_fst_subset gI.edges (sIdx, tIdx) w hW hT hmem
    rcases List.mem_append.1 hsub with h2 | h2
    · rw [hIedges] at h2
      exact Or.inl ⟨ha0, hb0, (mem_succs g a b).2 h2⟩
    · have : (a, b) = (sIdx, tIdx) := by simpa using h2
      rw [Prod.mk.injEq] at this
      exact Or.inr this
  have hnopath : ¬ Relation.ReflTransGen (stepRel g) tIdx sIdx := by
    intro hpath
    rcases hot : g.indexOf tgt with _ | pT
    · have htIdxN : g.keys.length ≤ tIdx := hfresh tgt tIdx hot htIdx
      rcases Relation.ReflTransGen.cases_head hpath with heq | ⟨c, hcstep, _⟩
      · exact hst heq.symm
      · obtain ⟨_, _, hmem⟩ := hcstep
        rw [mem_succs] at hmem
        rcases List.mem_map.1 hmem with ⟨e, he, hfst⟩
        have hlt := hwf.edges_src e he
        have : e.1.1 = tIdx := by rw [hfst]
        omega
    · rcases hos : g.indexOf src with _ | pS
      · have hsIdxN : g.keys.length ≤ sIdx := hfresh src sIdx hos hsIdx
        rcases Relation.ReflTransGen.cases_tail hpath with heq | ⟨c, _, hcstep⟩
        · exact hst heq
        · obtain ⟨_, _, hmem⟩ := hcstep
          rw [mem_succs] at hmem
          rcases List.mem_map.1 hmem with ⟨e, he, hfst⟩
          have hlt := hwf.edges_tgt e he
          have : e.1.2 = sIdx := by rw [hfst]
          omega
      · have hgeq : g1 = g := by
          rw [← hg1fst]
          exact getOrInsert_self_of_isSome g src (by rw [hos]; rfl)
        have hg1t : (g1.indexOf tgt).isSome = true := by
          rw [hgeq, hot]; rfl
        have hIeq : gI = g1 := by
          rw [← hg2fst]
          exact getOrInsert_self_of_isSome g1 tgt hg1t
        have hsV : sIdx = pS := by
          have : idxOf gI.keys src = g.indexOf src := by
            rw [hIeq, hgeq]; rfl
          rw [hsIdx, hos] at this
          exact Option.some.inj this
        have htV : tIdx = pT := by
          have : idxOf gI.keys tgt = g.indexOf tgt := by
            rw [hIeq, hgeq]; rfl
          rw [htIdx, hot] at this
          exact Option.some.inj this
        by_cases h0 : pT = 0 ∨ pS = 0
        · rcases h0 with h0 | h0
          · rcases Relation.ReflTransGen.cases_head hpath with heq | ⟨c, hcstep, _⟩
            · exact hst heq.symm
            · exact hcstep.1 (by omega)
          · rcases Relation.ReflTransGen.cases_tail hpath with heq | ⟨c, _, hcstep⟩
            · exact hst heq
            · exact hcstep.2.1 (by omega)
        · push_neg at h0
          refine guard_no_path g hwf tgt src hguard pT pS hot hos h0.1 h0.2 ?_
          rw [← htV, ← hsV]
          exact Relation.ReflTransGen.mono (fun a b hab => ⟨hab.2.1, hab.2.2⟩) hpath
  intro i hcyc
  rcases transGen_new_edge sIdx tIdx hstep2 i i hcyc with hold | ⟨p1, p2⟩
  · exact hcf i hold
  · exact hnopath (p2.trans p1)

/-- A second 44-character path key under root label `"L"`. -/
def keyB2 : Str := ['L', '/', 'b', '/'] ++ (List.replicate 39 '0' ++ ['='])

/-- Credits 100 to path key `keyA` in directory `"X"`. -/
def txCreditA : Transaction :=
  ⟨some keyC, keyA, 100, 0, ['/', 'X', '/'], some ['T', '4']⟩

/-- Credits 100 to path key `keyB2` in directory `"X"`. -/
def txCreditB : Transaction :=
  ⟨some keyC, keyB2, 100, 0, ['/', 'X', '/'], some ['T', '5']⟩

/-- Path transaction `keyA` → `keyB2` (empty memo, so the path case). -/
def txPathAB : Transaction := ⟨some keyA, keyB2, 100, 0, [], some ['T', '6']⟩

/-- Path transaction `keyB2` → `keyA`. -/
def txPathBA : Transaction := ⟨some keyB2, keyA, 100, 0, [], some ['T', '7']⟩

/-- Five accepted transactions in one connected block: a labelling, two
credits, and two opposite path transfers. -/
def c2Run : Option IState :=
  runBlocks (NewIndexer [])
    [(⟨3, [txLabelL, txCreditA, txCreditB, txPathAB, txPathBA]⟩, ['B', '9'], true)]

/-- The directory graph of `"X"` after `c2Run`. -/
def c2Graph : Graph := (c2Run.map (fun s => s.graphOf ['X'])).getD NewGraph

/-- C2 counterexample.  The path-inflation case links `txnFrom → txnTo`
with no `IsParentDescendant` check, so two opposite, individually
accepted path transfers create the two-cycle `1 → 2 → 1` between the
non-root nodes `keyA` (index 1) and `keyB2` (index 2). -/
theorem c2_cycle_cex :
    c2Run.isSome = true
    ∧ c2Graph.indexOf keyA = some 1
    ∧ c2Graph.indexOf keyB2 = some 2
    ∧ ¬ c2Graph.CycleFree := by
  refine ⟨by decide, by decide, by decide, ?_⟩
  intro hcf
  have h12 : stepRel c2Graph 1 2 := ⟨by decide, by decide, by decide⟩
  have h21 : stepRel c2Graph 2 1 := ⟨by decide, by decide, by decide⟩
  exact hcf 1 (Relation.TransGen.tail (Relation.TransGen.single h12) h21)

theorem c2_cycle_amended_witness :
    Graph.CycleFree ((NewGraph.link keyB keyC 1 2 3).getD NewGraph) :=
  c2_cycle_amended NewGraph keyB keyC 1 2 3 _ newGraph_wf (by decide) (by decide)
    (by decide) (by decide)
    (fun i h => by
      cases h with
      | single h1 => exact absurd h1.2.2 (by simp [Graph.succs, NewGraph])
      | tail h1 h2 => exact absurd h2.2.2 (by simp [Graph.succs, NewGraph]))
    (getD_of_isSome _ _ (by decide))
